import Mathlib

set_option autoImplicit false

/-!
# Verification of the finite-automata engine (`automata_logic.py`)

Shallow embedding of the automata transformation engine: NFA/DFA value
types, epsilon closure, subset construction (`nfa_to_dfa`), Moore
partition-refinement minimization (`minimize_dfa_with_steps`), and the
regex bridge.  States and symbols are Python strings, modelled as
`String`; Python dicts are modelled as association lists (`List (key ×
value)`) read through `List.lookup`, matching `dict.__getitem__` /
`dict.get` semantics; Python sets/frozensets of strings are `Finset
String`.  Iteration over a Python set (whose order is unspecified) is
modelled as iteration over the sorted list of elements; every result we
prove about such iterations is insensitive to that order.

All definitions are by structural recursion (loops carry explicit fuel,
with sufficiency lemmas), so concrete runs reduce inside the kernel.
String comparison is code-point lexicographic, exactly Python's `<` on
`str`.
-/

deriving instance DecidableEq for Except

namespace Automata

/-! ## Code-point lexicographic string order

Python compares strings by code points, lexicographically.  Mathlib's
`String` order is not kernel-reducible, so we define our own comparison
on the underlying character lists and develop its order theory. -/

/-- Lexicographic comparison of character lists by code point. -/
def lexLe : List Char → List Char → Bool
  | [], _ => true
  | _ :: _, [] => false
  | c :: cs, d :: ds =>
      if c.toNat = d.toNat then lexLe cs ds else decide (c.toNat < d.toNat)

/-- Python's `a <= b` on strings: code-point lexicographic order. -/
def strLe (a b : String) : Bool := lexLe a.data b.data

theorem lexLe_refl (l : List Char) : lexLe l l = true := by
  induction l with
  | nil => rfl
  | cons c cs ih => simp [lexLe, ih]

theorem lexLe_total (x y : List Char) : lexLe x y = true ∨ lexLe y x = true := by
  induction x generalizing y with
  | nil => left; rfl
  | cons c cs ih =>
      cases y with
      | nil => right; rfl
      | cons d ds =>
          by_cases h : c.toNat = d.toNat
          · rcases ih ds with h2 | h2
            · left; simp [lexLe, h, h2]
            · right; simp [lexLe, h.symm, h2]
          · rcases Nat.lt_or_ge c.toNat d.toNat with hlt | hge
            · left; simp [lexLe, h, hlt]
            · have hgt : d.toNat < c.toNat := by omega
              have hne : ¬ d.toNat = c.toNat := by omega
              right
              simp [lexLe, hne, hgt]

theorem char_toNat_inj {c d : Char} (h : c.toNat = d.toNat) : c = d :=
  Char.ext (UInt32.ext h)

theorem lexLe_antisymm {x y : List Char} (h1 : lexLe x y = true)
    (h2 : lexLe y x = true) : x = y := by
  induction x generalizing y with
  | nil =>
      cases y with
      | nil => rfl
      | cons d ds => simp [lexLe] at h2
  | cons c cs ih =>
      cases y with
      | nil => simp [lexLe] at h1
      | cons d ds =>
          by_cases h : c.toNat = d.toNat
          · have hc : c = d := char_toNat_inj h
            subst hc
            simp only [lexLe, if_pos rfl] at h1 h2
            rw [ih h1 h2]
          · have hne : ¬ d.toNat = c.toNat := fun hh => h hh.symm
            simp only [lexLe, if_neg h, decide_eq_true_eq] at h1
            simp only [lexLe, if_neg hne, decide_eq_true_eq] at h2
            omega

theorem lexLe_trans {x y z : List Char} (h1 : lexLe x y = true)
    (h2 : lexLe y z = true) : lexLe x z = true := by
  induction x generalizing y z with
  | nil => rfl
  | cons c cs ih =>
      cases y with
      | nil => simp [lexLe] at h1
      | cons d ds =>
          cases z with
          | nil => simp [lexLe] at h2
          | cons e es =>
              by_cases hcd : c.toNat = d.toNat
              · simp only [lexLe, if_pos hcd] at h1
                by_cases hde : d.toNat = e.toNat
                · simp only [lexLe, if_pos hde] at h2
                  simp only [lexLe, if_pos (hcd.trans hde)]
                  exact ih h1 h2
                · simp only [lexLe, if_neg hde, decide_eq_true_eq] at h2
                  have hce : ¬ c.toNat = e.toNat := by omega
                  simp only [lexLe, if_neg hce, decide_eq_true_eq]
                  omega
              · simp only [lexLe, if_neg hcd, decide_eq_true_eq] at h1
                by_cases hde : d.toNat = e.toNat
                · have hce : ¬ c.toNat = e.toNat := by omega
                  simp only [lexLe, if_neg hce, decide_eq_true_eq]
                  omega
                · simp only [lexLe, if_neg hde, decide_eq_true_eq] at h2
                  have hce : ¬ c.toNat = e.toNat := by omega
                  simp only [lexLe, if_neg hce, decide_eq_true_eq]
                  omega

theorem string_data_inj {a b : String} (h : a.data = b.data) : a = b := by
  cases a; cases b; exact congrArg String.mk h

theorem strLe_refl (a : String) : strLe a a = true := lexLe_refl _

theorem strLe_total (a b : String) : strLe a b = true ∨ strLe b a = true :=
  lexLe_total _ _

theorem strLe_antisymm {a b : String} (h1 : strLe a b = true)
    (h2 : strLe b a = true) : a = b :=
  string_data_inj (lexLe_antisymm h1 h2)

theorem strLe_trans {a b c : String} (h1 : strLe a b = true)
    (h2 : strLe b c = true) : strLe a c = true :=
  lexLe_trans h1 h2

/-- The string order as a `Prop`-valued relation, for Mathlib's sorting
lemmas. -/
def sle (a b : String) : Prop := strLe a b = true

instance : DecidableRel sle := fun a b => by unfold sle; infer_instance

instance : IsTotal String sle := ⟨strLe_total⟩

instance : IsTrans String sle := ⟨fun _ _ _ => strLe_trans⟩

instance : IsAntisymm String sle := ⟨fun _ _ => strLe_antisymm⟩

instance : IsRefl String sle := ⟨strLe_refl⟩

/-! ## Canonical enumeration of a finite string set

`sortedFin s` lists the elements of `s` in ascending code-point order.
It models Python's `sorted(X)` for a set `X` of strings, and supplies a
deterministic iteration order for `for x in X:` loops whose results do
not depend on the order. -/

/-- Minimum combination on optional strings. -/
def omin (x y : Option String) : Option String :=
  match x, y with
  | none, y => y
  | some a, none => some a
  | some a, some b => if strLe a b then some a else some b

theorem omin_comm (x y : Option String) : omin x y = omin y x := by
  cases x with
  | none => cases y <;> rfl
  | some a =>
      cases y with
      | none => rfl
      | some b =>
          simp only [omin]
          by_cases hab : strLe a b = true
          · by_cases hba : strLe b a = true
            · have : a = b := strLe_antisymm hab hba
              subst this; rfl
            · simp [hab, hba]
          · have hba : strLe b a = true := (strLe_total a b).resolve_left hab
            simp [hab, hba]

theorem omin_none_right (x : Option String) : omin x none = x := by
  cases x <;> rfl

theorem omin_assoc (x y z : Option String) :
    omin (omin x y) z = omin x (omin y z) := by
  cases x with
  | none => rfl
  | some a =>
      cases y with
      | none => rfl
      | some b =>
          cases z with
          | none => rw [omin_none_right, omin_none_right]
          | some c =>
              by_cases hab : strLe a b = true
              · by_cases hbc : strLe b c = true
                · simp [omin, hab, hbc, strLe_trans hab hbc]
                · simp [omin, hab, hbc]
              · by_cases hbc : strLe b c = true
                · simp [omin, hab, hbc]
                · have hba : strLe b a = true := (strLe_total a b).resolve_left hab
                  have hcb : strLe c b = true := (strLe_total b c).resolve_left hbc
                  have hca : strLe c a = true := strLe_trans hcb hba
                  by_cases hac : strLe a c = true
                  · have : a = c := strLe_antisymm hac hca
                    subst this
                    simp [omin, hab, hbc, strLe_refl]
                  · simp [omin, hab, hbc, hac]

instance : Std.Commutative omin := ⟨omin_comm⟩

instance : Std.Associative omin := ⟨omin_assoc⟩

/-- The minimum of a finite set of strings (`min(X)` in Python), `none`
for the empty set. -/
def minOf (s : Finset String) : Option String :=
  s.fold omin none (fun a => some a)

theorem minOf_empty : minOf ∅ = none := rfl

theorem minOf_insert {a : String} {s : Finset String} (ha : a ∉ s) :
    minOf (insert a s) = omin (some a) (minOf s) := by
  unfold minOf
  rw [Finset.fold_insert ha]

theorem omin_eq_none {x y : Option String} (h : omin x y = none) :
    x = none ∧ y = none := by
  cases x with
  | none => exact ⟨rfl, h⟩
  | some a =>
      cases y with
      | none => simp [omin] at h
      | some b =>
          simp only [omin] at h
          by_cases hab : strLe a b = true <;> simp [hab] at h

theorem minOf_eq_none {s : Finset String} (h : minOf s = none) : s = ∅ := by
  induction s using Finset.induction_on with
  | empty => rfl
  | insert ha ih =>
      rename_i a s
      unfold minOf at h
      rw [Finset.fold_insert ha] at h
      have := omin_eq_none h
      simp at this

theorem omin_mem {x y : Option String} {m : String} (h : omin x y = some m) :
    x = some m ∨ y = some m := by
  cases x with
  | none => right; exact h
  | some a =>
      cases y with
      | none => left; exact h
      | some b =>
          simp only [omin] at h
          by_cases hab : strLe a b = true
          · left; simpa [hab] using h
          · right; simpa [hab] using h

theorem minOf_mem {s : Finset String} {m : String} (h : minOf s = some m) :
    m ∈ s := by
  induction s using Finset.induction_on with
  | empty => simp [minOf] at h
  | insert ha ih =>
      rename_i a s
      unfold minOf at h
      rw [Finset.fold_insert ha] at h
      rcases omin_mem h with h1 | h1
      · simp only [Option.some_inj] at h1
        simp [h1]
      · exact Finset.mem_insert_of_mem (ih h1)

theorem omin_le_right {x : Option String} {b m : String}
    (h : omin x (some b) = some m) : strLe m b = true := by
  cases x with
  | none => cases h; exact strLe_refl _
  | some a =>
      simp only [omin] at h
      by_cases hab : strLe a b = true
      · simp only [if_pos hab, Option.some_inj] at h
        exact h ▸ hab
      · simp only [if_neg hab, Option.some_inj] at h
        exact h ▸ strLe_refl _

theorem minOf_le {s : Finset String} :
    ∀ {m x : String}, minOf s = some m → x ∈ s → strLe m x = true := by
  induction s using Finset.induction_on with
  | empty => intro m x h hx; simp at hx
  | insert ha ih =>
      rename_i a s
      intro m x h hx
      rw [minOf_insert ha] at h
      cases hm : minOf s with
      | none =>
          rw [hm, omin_none_right, Option.some_inj] at h
          subst h
          rcases Finset.mem_insert.mp hx with rfl | hxs
          · exact strLe_refl _
          · rw [minOf_eq_none hm] at hxs; simp at hxs
      | some m' =>
          rw [hm] at h
          simp only [omin] at h
          by_cases hd : strLe a m' = true
          · rw [if_pos hd, Option.some_inj] at h
            subst h
            rcases Finset.mem_insert.mp hx with rfl | hxs
            · exact strLe_refl _
            · exact strLe_trans hd (ih hm hxs)
          · rw [if_neg hd, Option.some_inj] at h
            subst h
            have hba : strLe m' a = true := (strLe_total a m').resolve_left hd
            rcases Finset.mem_insert.mp hx with rfl | hxs
            · exact hba
            · exact ih hm hxs

theorem minOf_nonempty {s : Finset String} (h : s.Nonempty) :
    ∃ m, minOf s = some m := by
  cases hm : minOf s with
  | none => rw [minOf_eq_none hm] at h; exact absurd h (by simp)
  | some m => exact ⟨m, rfl⟩

/-- Auxiliary recursion for `sortedFin`: peel off the minimum, with fuel. -/
def sortedFinAux : Nat → Finset String → List String
  | 0, _ => []
  | n + 1, s =>
      match minOf s with
      | none => []
      | some m => m :: sortedFinAux n (s.erase m)

/-- The elements of a finite string set in ascending order: Python's
`sorted(X)`. -/
def sortedFin (s : Finset String) : List String := sortedFinAux s.card s

theorem sortedFinAux_mem {n : Nat} {s : Finset String} (hn : s.card ≤ n) :
    ∀ x, x ∈ sortedFinAux n s ↔ x ∈ s := by
  induction n generalizing s with
  | zero =>
      intro x
      have : s = ∅ := Finset.card_eq_zero.mp (Nat.le_zero.mp hn)
      subst this; simp [sortedFinAux]
  | succ n ih =>
      intro x
      cases hm : minOf s with
      | none => rw [minOf_eq_none hm]; simp [sortedFinAux, minOf_empty]
      | some m =>
          have hms : m ∈ s := minOf_mem hm
          have hcard : (s.erase m).card ≤ n := by
            have := Finset.card_erase_of_mem hms
            omega
          simp only [sortedFinAux, hm, List.mem_cons, ih hcard]
          constructor
          · rintro (rfl | hx)
            · exact hms
            · exact Finset.mem_of_mem_erase hx
          · intro hx
            by_cases hxm : x = m
            · left; exact hxm
            · right; exact Finset.mem_erase.mpr ⟨hxm, hx⟩

theorem sortedFin_mem {s : Finset String} {x : String} :
    x ∈ sortedFin s ↔ x ∈ s :=
  sortedFinAux_mem le_rfl x

theorem sortedFinAux_sorted {n : Nat} {s : Finset String} (hn : s.card ≤ n) :
    List.Pairwise (fun a b => strLe a b = true ∧ a ≠ b) (sortedFinAux n s) := by
  induction n generalizing s with
  | zero => simp [sortedFinAux]
  | succ n ih =>
      cases hm : minOf s with
      | none => simp [sortedFinAux, hm]
      | some m =>
          have hms : m ∈ s := minOf_mem hm
          have hcard : (s.erase m).card ≤ n := by
            have := Finset.card_erase_of_mem hms
            omega
          simp only [sortedFinAux, hm]
          refine List.Pairwise.cons ?_ (ih hcard)
          intro b hb
          have hbs : b ∈ s.erase m := (sortedFinAux_mem hcard b).mp hb
          refine ⟨minOf_le hm (Finset.mem_of_mem_erase hbs), ?_⟩
          intro he
          exact (Finset.mem_erase.mp hbs).1 he.symm

theorem sortedFin_sorted (s : Finset String) :
    List.Pairwise (fun a b => strLe a b = true ∧ a ≠ b) (sortedFin s) :=
  sortedFinAux_sorted le_rfl

theorem sortedFin_nodup (s : Finset String) : (sortedFin s).Nodup :=
  (sortedFin_sorted s).imp (fun h => h.2)

theorem sortedFin_sle (s : Finset String) : List.Pairwise sle (sortedFin s) :=
  (sortedFin_sorted s).imp (fun h => h.1)

theorem sortedFinAux_length {n : Nat} {s : Finset String} (hn : s.card ≤ n) :
    (sortedFinAux n s).length = s.card := by
  induction n generalizing s with
  | zero =>
      have : s = ∅ := Finset.card_eq_zero.mp (Nat.le_zero.mp hn)
      subst this; simp [sortedFinAux]
  | succ n ih =>
      cases hm : minOf s with
      | none => rw [minOf_eq_none hm]; simp [sortedFinAux, minOf_empty]
      | some m =>
          have hms : m ∈ s := minOf_mem hm
          have hcard : (s.erase m).card ≤ n := by
            have := Finset.card_erase_of_mem hms
            omega
          simp only [sortedFinAux, hm, List.length_cons, ih hcard,
            Finset.card_erase_of_mem hms]
          have : 1 ≤ s.card := Finset.card_pos.mpr ⟨m, hms⟩
          omega

theorem sortedFin_length (s : Finset String) :
    (sortedFin s).length = s.card :=
  sortedFinAux_length le_rfl

theorem sortedFin_empty : sortedFin ∅ = [] := rfl

end Automata

namespace Automata

/-! ## Automaton value types (`create_nfa` / `create_dfa` shapes) -/

/-- `AutomataHandler._generate_label`: labels A, B, ..., Z, A1, B1, ....
`string.ascii_uppercase[i]` is the character with code `65 + i`, and the
f-string renders `index // 26` in decimal (`Nat.repr`). -/
def generate_label (index : Nat) : String :=
  if index < 26 then
    String.singleton (Char.ofNat (65 + index))
  else
    String.singleton (Char.ofNat (65 + index % 26)) ++ Nat.repr (index / 26)

/-- The NFA value type (`automata.fa.nfa.NFA` as used by the engine):
states, input symbols, the transition dict `{state: {symbol: set of
states}}`, initial state and final states.  The empty string is the
epsilon symbol. -/
structure NFAa where
  states : Finset String
  input_symbols : Finset String
  transitions : List (String × List (String × Finset String))
  initial_state : String
  final_states : Finset String
deriving DecidableEq

/-- The DFA value type (`automata.fa.dfa.DFA` as used by the engine):
transition dict `{state: {symbol: state}}`. -/
structure DFAa where
  states : Finset String
  input_symbols : Finset String
  transitions : List (String × List (String × String))
  initial_state : String
  final_states : Finset String
deriving DecidableEq

/-- `nfa_obj.transitions.get(q, {}).get(a, set())`: the set of states the
NFA can move to from `q` on symbol `a` (empty when either dict lookup
misses).  This is the only way the engine ever reads NFA transitions. -/
def nmoves (N : NFAa) (q a : String) : Finset String :=
  (((N.transitions.lookup q).getD []).lookup a).getD ∅

/-- All states occurring in some transition-value set of `N`, together
with the initial state.  Every composite state built by the engine is a
subset of this finite universe; it bounds all the worklists below. -/
def nfaUniv (N : NFAa) : Finset String :=
  N.transitions.foldr
    (fun p acc => p.2.foldr (fun q acc2 => q.2 ∪ acc2) acc)
    {N.initial_state}

/-! ## Epsilon closure (`_get_epsilon_closure`) -/

/-- Worklist loop of `_get_epsilon_closure`: pop a state, follow its
epsilon transitions, add newly discovered states to both the closure and
the stack.  Structural recursion on explicit fuel; `epsilonFuel` below is
enough fuel for the loop to run to an empty stack. -/
def closureLoop (N : NFAa) : Nat → Finset String → List String → Finset String
  | 0, cl, _ => cl
  | _ + 1, cl, [] => cl
  | fuel + 1, cl, q :: stack =>
      let ms := nmoves N q ""
      closureLoop N fuel (cl ∪ ms) (sortedFin (ms \ cl) ++ stack)

/-- Fuel sufficient for `closureLoop`: every loop iteration pops one
stack entry and pushes exactly the states newly added to the closure, all
of which lie in `nfaUniv N`. -/
def epsilonFuel (N : NFAa) (S : Finset String) : Nat :=
  S.card + (nfaUniv N \ S).card

/-- `AutomataHandler._get_epsilon_closure`: all states reachable from the
seed set `S` by zero or more epsilon transitions. -/
def get_epsilon_closure (N : NFAa) (S : Finset String) : Finset String :=
  closureLoop N (epsilonFuel N S) S (sortedFin S)

/-! ## Subset construction (`nfa_to_dfa`) -/

/-- One subset-construction move (`nfa_to_dfa` inner loop body): union of
the transition images of the members of the composite state, followed by
epsilon closure. -/
def stepSet (N : NFAa) (S : Finset String) (a : String) : Finset String :=
  get_epsilon_closure N (S.biUnion (fun q => nmoves N q a))

/-- The DFA alphabet symbols in iteration order: `sorted(input_symbols)`
with the epsilon symbol skipped. -/
def symsList (N : NFAa) : List String :=
  (sortedFin N.input_symbols).filter (fun a => a ≠ "")

/-- Mutable state of the `nfa_to_dfa` worklist loop: `state_list_ordered`
(discovery order, also the keys of `mapping`), the transition dict built
so far, the composite final states found so far, and the FIFO queue of
unprocessed composite states. -/
structure SubState where
  discovered : List (Finset String)
  trans : List (Finset String × List (String × Finset String))
  finals : Finset (Finset String)
  queue : List (Finset String)
deriving DecidableEq

/-- First phase of the `nfa_to_dfa` loop body: mark the popped composite
state final when it meets the NFA final states
(`if not ... isdisjoint(...)`). -/
def subFinals (N : NFAa) (q : Finset String) (st : SubState) : SubState :=
  if q ∩ N.final_states ≠ ∅ then
    { st with finals := insert q st.finals }
  else st

/-- Second phase of the `nfa_to_dfa` loop body: the `for symbol in
sorted(...)` loop, computing the popped state's transition row and
enqueueing every successor not seen before. -/
def subFold (N : NFAa) (q : Finset String) (st : SubState) :
    SubState × List (String × Finset String) :=
  (symsList N).foldl
    (fun (acc : SubState × List (String × Finset String)) a =>
      let t := stepSet N q a
      let row := acc.2 ++ [(a, t)]
      if t ∈ acc.1.discovered then (acc.1, row)
      else
        ({ acc.1 with
            discovered := acc.1.discovered ++ [t],
            queue := acc.1.queue ++ [t] }, row))
    (st, [])

/-- Body of the `nfa_to_dfa` worklist loop for one popped composite state
`q`: mark it final if it meets the NFA final states, record its full
transition row, and enqueue every newly discovered successor. -/
def subStep (N : NFAa) (q : Finset String) (st : SubState) : SubState :=
  let r := subFold N q (subFinals N q st)
  { r.1 with trans := r.1.trans ++ [(q, r.2)] }

/-- The `while unprocessed_states` loop of `nfa_to_dfa`, popping from the
front of the queue, with explicit fuel (structural recursion);
`subsetFuel` below always suffices. -/
def subLoop (N : NFAa) : Nat → SubState → SubState
  | 0, st => st
  | fuel + 1, st =>
      match st.queue with
      | [] => st
      | q :: rest => subLoop N fuel (subStep N q { st with queue := rest })

/-- Fuel sufficient for `subLoop`: there are at most `2 ^ |nfaUniv N|`
composite states, and each loop iteration strictly decreases
`|queue| + (2 ^ |nfaUniv N| - |discovered|)`. -/
def subsetFuel (N : NFAa) : Nat := 2 ^ (nfaUniv N).card

/-- Label of a composite state: its discovery index fed to
`_generate_label` (the source's `mapping[frozenset]`). -/
def labelOf (l : List (Finset String)) (S : Finset String) : String :=
  generate_label (l.indexOf S)

/-- `AutomataHandler.nfa_to_dfa`: subset construction.  Returns the DFA
with relabeled states together with the discovery-order mapping from
composite states to labels. -/
def nfa_to_dfa (N : NFAa) : DFAa × List (Finset String × String) :=
  let init := get_epsilon_closure N {N.initial_state}
  let st := subLoop N (subsetFuel N) ⟨[init], [], ∅, [init]⟩
  let mapping := st.discovered.enum.map (fun p => (p.2, generate_label p.1))
  let dfa : DFAa :=
    { states := (st.discovered.map (labelOf st.discovered)).toFinset
      input_symbols := N.input_symbols.erase ""
      transitions := st.trans.map
        (fun p => (labelOf st.discovered p.1,
          p.2.map (fun e => (e.1, labelOf st.discovered e.2))))
      initial_state := labelOf st.discovered init
      final_states := st.finals.image (labelOf st.discovered) }
  (dfa, mapping)

/-! ## Acceptance semantics (modelled from the spec) -/

/-- Modelled from the spec: DFA word acceptance from a given state (the
automata library's `read_input` / `accepts_input`, absent from the source
tree).  Per §3/§8 of the spec a missing transition means reject, not
error: the run simply dies. -/
def acceptFrom (d : DFAa) (q : String) : List String → Bool
  | [] => q ∈ d.final_states
  | a :: w =>
      match (d.transitions.lookup q).bind (fun row => row.lookup a) with
      | none => false
      | some t => acceptFrom d t w

/-- Modelled from the spec: DFA acceptance of a word, starting from the
initial state. -/
def dfaAccepts (d : DFAa) (w : List String) : Bool :=
  acceptFrom d d.initial_state w

/-- Modelled from the spec: NFA acceptance (the automata library's
`accepts_input`, absent from the source tree), as the standard relational
semantics of the glossary: a word is accepted from `q` if some run
consuming it, interleaved with epsilon moves, ends in a final state. -/
inductive NAccept (N : NFAa) : String → List String → Prop
  | final {q} : q ∈ N.final_states → NAccept N q []
  | eps {q q' w} : q' ∈ nmoves N q "" → NAccept N q' w → NAccept N q w
  | step {q q' a w} : q' ∈ nmoves N q a → NAccept N q' w → NAccept N q (a :: w)

end Automata

namespace Automata

/-! ## Moore partition-refinement minimizer (`minimize_dfa_with_steps`)

The Python loop raises `KeyError` when `dfa_obj.transitions[state]` is
queried for a state with no entry in the transition dict; this is
modelled by `Except String`, the error carrying the offending state.
`dict.get(symbol)` on the inner dict is total (`Option`). -/

/-- The DFA symbols in iteration order: `sorted(dfa_obj.input_symbols)`
(the minimizer does not strip epsilon). -/
def symsListD (d : DFAa) : List String := sortedFin d.input_symbols

/-- `dfa_obj.transitions[state]`: the transition row of a state, a
`KeyError` (carrying the state) when absent. -/
def transRow (d : DFAa) (q : String) : Except String (List (String × String)) :=
  match d.transitions.lookup q with
  | none => .error q
  | some row => .ok row

/-- Index of the first partition group containing `t`, `-2` when none
does (the source appends `-2` to the signature in that case). -/
def partIdx (parts : List (Finset String)) (t : String) : Int :=
  match parts.findIdx? (fun p => decide (t ∈ p)) with
  | some i => (i : Int)
  | none => -2

/-- The signature of a state relative to the current partition: one
entry per alphabet symbol in sorted order; `-1` for a missing transition,
otherwise the index of the group containing the target. -/
def signature (d : DFAa) (parts : List (Finset String)) (q : String) :
    Except String (List Int) := do
  let row ← transRow d q
  pure ((symsListD d).map (fun a =>
    match row.lookup a with
    | none => (-1 : Int)
    | some t => partIdx parts t))

/-- `sub_groups` accumulation: d Python dict keyed by signature tuple,
in first-appearance order, each value collecting the states with that
signature. -/
def addToGroup (acc : List (List Int × Finset String)) (sig : List Int)
    (s : String) : List (List Int × Finset String) :=
  match acc with
  | [] => [(sig, {s})]
  | (k, g) :: rest =>
      if k = sig then (k, insert s g) :: rest
      else (k, g) :: addToGroup rest sig s

/-- Split one group by signature (`for state in group: ...` followed by
`sub_groups.values()`). -/
def splitGroup (d : DFAa) (parts : List (Finset String)) (g : Finset String) :
    Except String (List (Finset String)) := do
  let pairs ← (sortedFin g).foldlM (fun acc s => do
      let sig ← signature d parts s
      pure (addToGroup acc sig s)) []
  pure (pairs.map Prod.snd)

/-- One refinement round over all groups: groups of size at most one are
kept, larger groups are split by signature. -/
def refineRound (d : DFAa) (parts : List (Finset String)) :
    Except String (List (Finset String)) :=
  parts.foldlM (fun acc g =>
    if g.card ≤ 1 then pure (acc ++ [g])
    else do
      let sgs ← splitGroup d parts g
      pure (acc ++ sgs)) []

/-- Python's `min(str(x) for x in s)`: the least member of a group
(groups are never empty; `""` is a dummy for the empty set). -/
def pkey (g : Finset String) : String := (minOf g).getD ""

/-- Order on groups by least member, the sort key
`lambda s: min(str(x) for x in s)` of the source. -/
def pLe (g h : Finset String) : Prop := sle (pkey g) (pkey h)

instance : DecidableRel pLe := fun g h => by unfold pLe; infer_instance

instance : IsTotal (Finset String) pLe := ⟨fun _ _ => strLe_total _ _⟩

instance : IsTrans (Finset String) pLe := ⟨fun _ _ _ => strLe_trans⟩

/-- `new_partitions.sort(key=...)`: stable sort of the groups by least
member. -/
def sortParts (l : List (Finset String)) : List (Finset String) :=
  List.insertionSort pLe l

/-- Round 0 of the minimizer: the non-final states then the final
states, empty groups omitted. -/
def initParts (d : DFAa) : List (Finset String) :=
  let non_final := d.states \ d.final_states
  (if non_final ≠ ∅ then [non_final] else []) ++
    (if d.final_states ≠ ∅ then [d.final_states] else [])

/-- The `while True` refinement loop: refine, sort, record, stop when the
new partition equals the previous one.  Returns the recorded rounds
(rounds 1 and later; round 0 is recorded by the caller) and the final
partition.  Fuel-based; `minimFuel` below always suffices. -/
def minimLoop (d : DFAa) : Nat → List (Finset String) →
    Except String (List (List (Finset String)) × List (Finset String))
  | 0, _ => .error "fuel"
  | fuel + 1, parts => do
      let refined ← refineRound d parts
      let sorted := sortParts refined
      if sorted = parts then
        pure ([sorted], sorted)
      else do
        let r ← minimLoop d fuel sorted
        pure (sorted :: r.1, r.2)

/-- Fuel sufficient for `minimLoop`: every round except possibly the
first and last strictly increases the number of groups, which is bounded
by the number of states. -/
def minimFuel (d : DFAa) : Nat := d.states.card + 2

/-- Result triple of `minimize_dfa_with_steps`: the minimized DFA, the
recorded partition trace (one entry per `Equivalence k` line), and the
partition-to-label mapping. -/
structure MinimResult where
  dfa : DFAa
  steps : List (List (Finset String))
  mapping : List (Finset String × String)
deriving DecidableEq

/-- `ordered = [start_partition] + remaining` of the rebuild phase:
the start partition first, the remaining groups sorted by least member. -/
def rebuildOrdered (parts : List (Finset String)) (sp : Finset String) :
    List (Finset String) :=
  sp :: sortParts (parts.filter (fun p => p ≠ sp))

/-- `state_mapping`: each partition of `ordered`, in order, is labelled
`q0, q1, ...` by `_generate_label`. -/
def rebuildMapping (parts : List (Finset String)) (sp : Finset String) :
    List (Finset String × String) :=
  (rebuildOrdered parts sp).enum.map (fun pr => (pr.2, generate_label pr.1))

/-- The label assigned to a partition by `state_mapping`. -/
def rebuildLabel (parts : List (Finset String)) (sp : Finset String)
    (p : Finset String) : String :=
  ((rebuildMapping parts sp).lookup p).getD ""

/-- The rebuilt transition row of one partition, from its
representative's row: one entry per (sorted) alphabet symbol whose target
exists and lies in some non-empty partition. -/
def rebuildRow (d : DFAa) (parts : List (Finset String)) (sp : Finset String)
    (row : List (String × String)) : List (String × String) :=
  (symsListD d).filterMap (fun a =>
    match row.lookup a with
    | none => none
    | some t =>
        match parts.find? (fun g => decide (t ∈ g)) with
        | none => none
        | some tp => if tp ≠ ∅ then some (a, rebuildLabel parts sp tp) else none)

/-- The representative's transition row of a partition
(`dfa_obj.transitions[next(iter(p_frozen))]`, the representative being
the least member). -/
def repRow (d : DFAa) (p : Finset String) : List (String × String) :=
  (d.transitions.lookup ((sortedFin p).headD "")).getD []

/-- `new_transitions` of the rebuild phase. -/
def rebuildTrans (d : DFAa) (parts : List (Finset String)) (sp : Finset String) :
    List (String × List (String × String)) :=
  (rebuildOrdered parts sp).map (fun p =>
    (rebuildLabel parts sp p, rebuildRow d parts sp (repRow d p)))

/-- The minimized DFA rebuilt from the final partition `parts` with start
partition `sp`. -/
def rebuildDFA (d : DFAa) (parts : List (Finset String)) (sp : Finset String) :
    DFAa :=
  { states := ((rebuildMapping parts sp).map Prod.snd).toFinset
    input_symbols := d.input_symbols
    transitions := rebuildTrans d parts sp
    initial_state := rebuildLabel parts sp sp
    final_states := (((rebuildOrdered parts sp).filter
      (fun p => p ∩ d.final_states ≠ ∅)).map (rebuildLabel parts sp)).toFinset }


/-- `AutomataHandler.minimize_dfa_with_steps`: Moore's algorithm with a
recorded partition trace, rebuilding the minimized DFA from the final
partition.  `next(iter(p_frozen))`, whose choice is unspecified in
Python, is modelled as the least member of the group; at the fixed point
every member of a group determines the same rebuilt row. -/
def minimize_dfa_with_steps (d : DFAa) : Except String MinimResult := do
  let parts0 := initParts d
  let lr ← minimLoop d (minimFuel d) parts0
  let parts := lr.2
  let start_partition ← match parts.find? (fun p => decide (d.initial_state ∈ p)) with
    | some p => Except.ok p
    | none => Except.error "start"
  let _ ← (rebuildOrdered parts start_partition).mapM
    (fun p => transRow d ((sortedFin p).headD ""))
  pure ⟨rebuildDFA d parts start_partition, parts0 :: lr.1,
    rebuildMapping parts start_partition⟩

/-- Modelled from the spec: `create_dfa` (the automata library's `DFA`
constructor, not in the source tree) validates the §3 invariants --
initial state in the state set, final states in the state set, every
transition target in the state set, no epsilon in a DFA alphabet -- and
otherwise returns the value; per §3 an omitted transition entry is
permitted and denotes the implicit sink. -/
def create_dfa (states : Finset String) (alphabet : Finset String)
    (transitions : List (String × List (String × String)))
    (start_state : String) (final_states : Finset String) :
    Except String DFAa :=
  if start_state ∉ states then .error "initial state not in states"
  else if ¬ final_states ⊆ states then .error "final state not in states"
  else if ¬ (transitions.all (fun p => p.2.all (fun e => e.2 ∈ states))) then
    .error "transition target not in states"
  else if "" ∈ alphabet then .error "epsilon in DFA alphabet"
  else .ok ⟨states, alphabet, transitions, start_state, final_states⟩

/-- Well-formedness of a DFA value, as guaranteed by the library
constructor for the DFAs the engine builds and minimizes: initial and
final states belong to the state set, every state has a transition row
(possibly lacking some symbols), and every recorded transition uses an
alphabet symbol and targets a state. -/
def wfDFA (d : DFAa) : Prop :=
  d.initial_state ∈ d.states ∧
  d.final_states ⊆ d.states ∧
  (∀ q ∈ d.states, (d.transitions.lookup q).isSome = true) ∧
  (∀ q row, d.transitions.lookup q = some row →
    ∀ e ∈ row, e.1 ∈ d.input_symbols ∧ e.2 ∈ d.states)

end Automata

namespace Automata

/-! ## Association list lookup facts -/

theorem lookup_mem {α β : Type} [BEq α] [LawfulBEq α] {l : List (α × β)}
    {a : α} {b : β} (h : l.lookup a = some b) : (a, b) ∈ l := by
  induction l with
  | nil => simp [List.lookup] at h
  | cons p rest ih =>
      obtain ⟨p1, p2⟩ := p
      simp only [List.lookup] at h
      cases he : a == p1
      · rw [he] at h
        exact List.mem_cons_of_mem _ (ih h)
      · rw [he] at h
        simp only [Option.some_inj] at h
        have ha : a = p1 := eq_of_beq he
        subst ha
        subst h
        exact List.mem_cons_self _ _

/-! ## Epsilon-closure properties -/

theorem nmoves_subset_nfaUniv (N : NFAa) (q a : String) :
    nmoves N q a ⊆ nfaUniv N := by
  unfold nmoves nfaUniv
  cases hq : N.transitions.lookup q with
  | none => simp
  | some row =>
      simp only [Option.getD_some]
      cases ha : row.lookup a with
      | none => simp
      | some s =>
          simp only [Option.getD_some]
          have hmem : (q, row) ∈ N.transitions := lookup_mem hq
          have hrow : (a, s) ∈ row := lookup_mem ha
          -- s is among the value sets folded into the universe
          have main : ∀ (l : List (String × List (String × Finset String)))
              (base : Finset String), (q, row) ∈ l →
              s ⊆ l.foldr (fun p acc => p.2.foldr (fun e acc2 => e.2 ∪ acc2) acc) base := by
            intro l
            induction l with
            | nil => intro base h; simp at h
            | cons p rest ih =>
                intro base h
                rcases List.mem_cons.mp h with h1 | h1
                · subst h1
                  simp only [List.foldr_cons]
                  have inner : ∀ (r : List (String × Finset String))
                      (acc : Finset String), (a, s) ∈ r →
                      s ⊆ r.foldr (fun e acc2 => e.2 ∪ acc2) acc := by
                    intro r
                    induction r with
                    | nil => intro acc hh; simp at hh
                    | cons e er ihr =>
                        intro acc hh
                        rcases List.mem_cons.mp hh with h2 | h2
                        · subst h2
                          simp only [List.foldr_cons]
                          exact Finset.subset_union_left
                        · simp only [List.foldr_cons]
                          exact (ihr _ h2).trans Finset.subset_union_right
                  exact inner _ _ hrow
                · simp only [List.foldr_cons]
                  refine (ih base h1).trans ?_
                  -- folding more unions only grows the set
                  have grow : ∀ (r : List (String × Finset String))
                      (acc : Finset String),
                      acc ⊆ r.foldr (fun e acc2 => e.2 ∪ acc2) acc := by
                    intro r
                    induction r with
                    | nil => intro acc; exact Finset.Subset.refl _
                    | cons e er ihr =>
                        intro acc
                        simp only [List.foldr_cons]
                        exact (ihr acc).trans Finset.subset_union_right
                  exact grow _ _
          exact main _ _ hmem

theorem closureLoop_mono (N : NFAa) :
    ∀ (fuel : Nat) (cl : Finset String) (stack : List String),
      cl ⊆ closureLoop N fuel cl stack := by
  intro fuel
  induction fuel with
  | zero => intro cl stack; exact Finset.Subset.refl _
  | succ fuel ih =>
      intro cl stack
      cases stack with
      | nil => exact Finset.Subset.refl _
      | cons q rest =>
          simp only [closureLoop]
          exact Finset.subset_union_left.trans (ih _ _)

theorem closureLoop_sound (N : NFAa) :
    ∀ (fuel : Nat) (cl : Finset String) (stack : List String) (T : Set String),
      (∀ x ∈ cl, x ∈ T) →
      (∀ x ∈ T, ∀ y ∈ nmoves N x "", y ∈ T) →
      (∀ x ∈ stack, x ∈ T) →
      ∀ x ∈ closureLoop N fuel cl stack, x ∈ T := by
  intro fuel
  induction fuel with
  | zero => intro cl stack T hcl _ _ x hx; exact hcl x hx
  | succ fuel ih =>
      intro cl stack T hcl hT hstack x hx
      cases stack with
      | nil => exact hcl x hx
      | cons q rest =>
          simp only [closureLoop] at hx
          refine ih _ _ T ?_ hT ?_ x hx
          · intro y hy
            rcases Finset.mem_union.mp hy with h1 | h1
            · exact hcl y h1
            · exact hT q (hstack q (List.mem_cons_self q rest)) y h1
          · intro y hy
            rcases List.mem_append.mp hy with h1 | h1
            · have : y ∈ nmoves N q "" := (Finset.mem_sdiff.mp (sortedFin_mem.mp h1)).1
              exact hT q (hstack q (List.mem_cons_self q rest)) y this
            · exact hstack y (List.mem_cons_of_mem _ h1)

theorem closureLoop_closed (N : NFAa) :
    ∀ (fuel : Nat) (cl : Finset String) (stack : List String),
      (∀ x ∈ cl, x ∉ stack → nmoves N x "" ⊆ cl) →
      (∀ x ∈ stack, x ∈ cl) →
      stack.length + (nfaUniv N \ cl).card ≤ fuel →
      ∀ x ∈ closureLoop N fuel cl stack, nmoves N x "" ⊆ closureLoop N fuel cl stack := by
  intro fuel
  induction fuel with
  | zero =>
      intro cl stack hinv hsub hfuel
      have : stack = [] := List.eq_nil_of_length_eq_zero (by omega)
      subst this
      intro x hx
      exact fun y hy => (hinv x hx (by simp)) hy
  | succ fuel ih =>
      intro cl stack hinv hsub hfuel
      cases stack with
      | nil =>
          intro x hx
          exact fun y hy => (hinv x hx (by simp)) hy
      | cons q rest =>
          simp only [closureLoop]
          have hms : nmoves N q "" ⊆ nfaUniv N := nmoves_subset_nfaUniv N q ""
          refine ih (cl ∪ nmoves N q "")
            (sortedFin (nmoves N q "" \ cl) ++ rest) ?_ ?_ ?_
          · intro x hx hnx
            rcases Finset.mem_union.mp hx with h1 | h1
            · by_cases hxq : x = q
              · subst hxq
                exact Finset.subset_union_right
              · have hxr : x ∉ rest := fun hc =>
                  hnx (List.mem_append.mpr (Or.inr hc))
                have : x ∉ q :: rest := by
                  intro hc
                  rcases List.mem_cons.mp hc with h2 | h2
                  · exact hxq h2
                  · exact hxr h2
                exact (hinv x h1 this).trans Finset.subset_union_left
            · by_cases h2 : x ∈ cl
              · by_cases hxq : x = q
                · subst hxq
                  exact Finset.subset_union_right
                · have hxr : x ∉ rest := fun hc =>
                    hnx (List.mem_append.mpr (Or.inr hc))
                  have : x ∉ q :: rest := by
                    intro hc
                    rcases List.mem_cons.mp hc with h3 | h3
                    · exact hxq h3
                    · exact hxr h3
                  exact (hinv x h2 this).trans Finset.subset_union_left
              · exact absurd (List.mem_append.mpr (Or.inl
                  (sortedFin_mem.mpr (Finset.mem_sdiff.mpr ⟨h1, h2⟩)))) hnx
          · intro x hx
            rcases List.mem_append.mp hx with h1 | h1
            · exact Finset.mem_union_right _ (Finset.mem_sdiff.mp (sortedFin_mem.mp h1)).1
            · exact Finset.mem_union_left _ (hsub x (List.mem_cons_of_mem _ h1))
          · rw [List.length_append, sortedFin_length]
            have hcover : nfaUniv N \ (cl ∪ nmoves N q "") =
                (nfaUniv N \ cl) \ (nmoves N q "" \ cl) := by
              ext y
              simp only [Finset.mem_sdiff, Finset.mem_union]
              tauto
            have hsubcard : (nmoves N q "" \ cl) ⊆ nfaUniv N \ cl := by
              intro y hy
              rcases Finset.mem_sdiff.mp hy with ⟨h1, h2⟩
              exact Finset.mem_sdiff.mpr ⟨hms h1, h2⟩
            have hcard : (nfaUniv N \ (cl ∪ nmoves N q "")).card =
                (nfaUniv N \ cl).card - (nmoves N q "" \ cl).card := by
              rw [hcover, Finset.card_sdiff hsubcard]
            have hle : (nmoves N q "" \ cl).card ≤ (nfaUniv N \ cl).card :=
              Finset.card_le_card hsubcard
            simp only [List.length_cons] at hfuel
            omega

theorem ec_subset (N : NFAa) (S : Finset String) :
    S ⊆ get_epsilon_closure N S :=
  closureLoop_mono N _ S _

theorem ec_closed (N : NFAa) (S : Finset String) :
    ∀ x ∈ get_epsilon_closure N S,
      nmoves N x "" ⊆ get_epsilon_closure N S := by
  unfold get_epsilon_closure
  refine closureLoop_closed N _ S (sortedFin S) ?_ ?_ ?_
  · intro x hx hnx
    exact absurd (sortedFin_mem.mpr hx) hnx
  · intro x hx
    exact sortedFin_mem.mp hx
  · unfold epsilonFuel
    rw [sortedFin_length]

theorem ec_minimal (N : NFAa) (S : Finset String) (T : Set String)
    (hS : ∀ x ∈ S, x ∈ T)
    (hT : ∀ x ∈ T, ∀ y ∈ nmoves N x "", y ∈ T) :
    ∀ x ∈ get_epsilon_closure N S, x ∈ T := by
  unfold get_epsilon_closure
  refine closureLoop_sound N _ S (sortedFin S) T hS hT ?_
  intro x hx
  exact hS x (sortedFin_mem.mp hx)

theorem ec_idem (N : NFAa) (S : Finset String) :
    get_epsilon_closure N (get_epsilon_closure N S) = get_epsilon_closure N S := by
  apply Finset.Subset.antisymm
  · intro x hx
    exact ec_minimal N (get_epsilon_closure N S) (fun y => y ∈ get_epsilon_closure N S)
      (fun y hy => hy)
      (fun y hy z hz => ec_closed N S y hy hz) x hx
  · exact ec_subset N _

/-- Reachability along zero or more epsilon transitions. -/
inductive epsReach (N : NFAa) : String → String → Prop
  | refl (q : String) : epsReach N q q
  | tail {q r s : String} : epsReach N q r → s ∈ nmoves N r "" → epsReach N q s

theorem mem_ec_iff {N : NFAa} {S : Finset String} {q : String} :
    q ∈ get_epsilon_closure N S ↔ ∃ s ∈ S, epsReach N s q := by
  constructor
  · intro hq
    exact ec_minimal N S (fun x => ∃ s ∈ S, epsReach N s x)
      (fun x hx => ⟨x, hx, epsReach.refl x⟩)
      (fun x ⟨s, hs, hr⟩ y hy => ⟨s, hs, epsReach.tail hr hy⟩) q hq
  · rintro ⟨s, hs, hr⟩
    induction hr with
    | refl => exact ec_subset N S hs
    | tail hqr hmove ih => exact ec_closed N S _ ih hmove

end Automata

namespace Automata

/-! ## Injectivity of `_generate_label`

The labels A..Z, A1, B1, ... are pairwise distinct; this underlies every
dict keyed by generated labels.  Requires injectivity of decimal
rendering (`Nat.repr`), proved via `Nat.digits`. -/

theorem char_toNat_ofNat {n : Nat} (h : n < 55296) : (Char.ofNat n).toNat = n := by
  have hv : Char.isValidCharNat n := Or.inl h
  rw [Char.ofNat, dif_pos hv]
  simp [Char.ofNatAux, Char.toNat, UInt32.ofNat', UInt32.toNat, BitVec.toNat_ofNatLt]

/-- The decimal digit characters of `n`, most significant first. -/
def digitsRep (n : Nat) : List Char :=
  if n = 0 then ['0'] else ((Nat.digits 10 n).map Nat.digitChar).reverse

theorem toDigitsCore_eq :
    ∀ (fuel n : Nat) (ds : List Char), n < fuel →
      Nat.toDigitsCore 10 fuel n ds = digitsRep n ++ ds := by
  intro fuel
  induction fuel with
  | zero => intro n ds h; omega
  | succ f ih =>
      intro n ds h
      simp only [Nat.toDigitsCore]
      by_cases hdiv : n / 10 = 0
      · rw [if_pos hdiv]
        by_cases hn : n = 0
        · subst hn
          rfl
        · have hlt : n < 10 := (Nat.div_eq_zero_iff (by omega)).mp hdiv
          have hd : Nat.digits 10 n = [n % 10] := by
            rw [Nat.digits_def' (by norm_num : (1:ℕ) < 10) (Nat.pos_of_ne_zero hn),
              hdiv, Nat.digits_zero]
          simp [digitsRep, hn, hd]
      · rw [if_neg hdiv]
        have hn : n ≠ 0 := by
          intro hc; subst hc; simp at hdiv
        have hlt : n / 10 < f := by
          have h1 : n / 10 < n := Nat.div_lt_self (Nat.pos_of_ne_zero hn) (by norm_num)
          omega
        rw [ih (n / 10) (Nat.digitChar (n % 10) :: ds) hlt]
        have hsplit : digitsRep n = digitsRep (n / 10) ++ [Nat.digitChar (n % 10)] := by
          unfold digitsRep
          rw [if_neg hn, if_neg hdiv,
            Nat.digits_def' (by norm_num : (1:ℕ) < 10) (Nat.pos_of_ne_zero hn)]
          simp
        rw [hsplit, List.append_assoc]
        rfl

theorem repr_data_eq (n : Nat) : (Nat.repr n).data = digitsRep n := by
  unfold Nat.repr Nat.toDigits
  rw [toDigitsCore_eq (n + 1) n [] (Nat.lt_succ_self n), List.append_nil]
  rfl

/-- Decimal digit read-back, inverse of `Nat.digitChar` below 10. -/
def charDigit (c : Char) : Nat := c.toNat - 48

theorem charDigit_digitChar : ∀ i < 10, charDigit (Nat.digitChar i) = i := by decide

theorem map_charDigit_digitChar {l : List Nat} (hl : ∀ d ∈ l, d < 10) :
    (l.map Nat.digitChar).map charDigit = l := by
  induction l with
  | nil => rfl
  | cons d rest ih =>
      simp only [List.map_cons, List.cons.injEq]
      exact ⟨charDigit_digitChar d (hl d (List.mem_cons_self d rest)),
        ih (fun e he => hl e (List.mem_cons_of_mem d he))⟩

theorem map_digitChar_inj {l1 l2 : List Nat} (h1 : ∀ d ∈ l1, d < 10)
    (h2 : ∀ d ∈ l2, d < 10)
    (h : l1.map Nat.digitChar = l2.map Nat.digitChar) : l1 = l2 := by
  have := congrArg (List.map charDigit) h
  rwa [map_charDigit_digitChar h1, map_charDigit_digitChar h2] at this

theorem digitsRep_inj {m n : Nat} (h : digitsRep m = digitsRep n) : m = n := by
  by_cases hm : m = 0 <;> by_cases hn : n = 0
  · exact hm.trans hn.symm
  · exfalso
    unfold digitsRep at h
    rw [if_pos hm, if_neg hn] at h
    have hmap : (Nat.digits 10 n).map Nat.digitChar = ['0'] := by
      have := congrArg List.reverse h
      simpa using this.symm
    have hlen : (Nat.digits 10 n).length = 1 := by
      have := congrArg List.length hmap
      simpa using this
    obtain ⟨d, hd⟩ : ∃ d, Nat.digits 10 n = [d] := by
      cases hds : Nat.digits 10 n with
      | nil => rw [hds] at hlen; simp at hlen
      | cons d rest =>
          rw [hds] at hlen
          simp at hlen
          exact ⟨d, by rw [hlen]⟩
    rw [hd] at hmap
    simp only [List.map_cons, List.map_nil, List.cons.injEq] at hmap
    have hdlt : d < 10 :=
      Nat.digits_lt_base (by norm_num) (hd ▸ List.mem_cons_self d [])
    have hd0 : d = 0 := by
      have h0 : Nat.digitChar d = Nat.digitChar 0 := hmap.1
      have := charDigit_digitChar d hdlt
      rw [h0] at this
      simpa [charDigit_digitChar 0 (by norm_num)] using this.symm
    have hne := Nat.getLast_digit_ne_zero 10 hn
    rw [List.getLast_congr _ _ hd] at hne
    · simp [hd0] at hne
    · simp
  · exfalso
    unfold digitsRep at h
    rw [if_neg hm, if_pos hn] at h
    have hmap : (Nat.digits 10 m).map Nat.digitChar = ['0'] := by
      have := congrArg List.reverse h
      simpa using this
    have hlen : (Nat.digits 10 m).length = 1 := by
      have := congrArg List.length hmap
      simpa using this
    obtain ⟨d, hd⟩ : ∃ d, Nat.digits 10 m = [d] := by
      cases hds : Nat.digits 10 m with
      | nil => rw [hds] at hlen; simp at hlen
      | cons d rest =>
          rw [hds] at hlen
          simp at hlen
          exact ⟨d, by rw [hlen]⟩
    rw [hd] at hmap
    simp only [List.map_cons, List.map_nil, List.cons.injEq] at hmap
    have hdlt : d < 10 :=
      Nat.digits_lt_base (by norm_num) (hd ▸ List.mem_cons_self d [])
    have hd0 : d = 0 := by
      have h0 : Nat.digitChar d = Nat.digitChar 0 := hmap.1
      have := charDigit_digitChar d hdlt
      rw [h0] at this
      simpa [charDigit_digitChar 0 (by norm_num)] using this.symm
    have hne := Nat.getLast_digit_ne_zero 10 hm
    rw [List.getLast_congr _ _ hd] at hne
    · simp [hd0] at hne
    · simp
  · unfold digitsRep at h
    rw [if_neg hm, if_neg hn] at h
    have hrev := congrArg List.reverse h
    rw [List.reverse_reverse, List.reverse_reverse] at hrev
    have hdig : Nat.digits 10 m = Nat.digits 10 n :=
      map_digitChar_inj
        (fun d hd => Nat.digits_lt_base (by norm_num) hd)
        (fun d hd => Nat.digits_lt_base (by norm_num) hd) hrev
    have := congrArg (Nat.ofDigits 10) hdig
    rwa [Nat.ofDigits_digits, Nat.ofDigits_digits] at this

theorem repr_inj {m n : Nat} (h : Nat.repr m = Nat.repr n) : m = n := by
  apply digitsRep_inj
  rw [← repr_data_eq, ← repr_data_eq, h]

theorem digitsRep_ne_nil (n : Nat) : digitsRep n ≠ [] := by
  unfold digitsRep
  by_cases hn : n = 0
  · simp [hn]
  · rw [if_neg hn]
    simp [Nat.digits_ne_nil_iff_ne_zero.mpr hn]

theorem generate_label_data (i : Nat) :
    (generate_label i).data =
      if i < 26 then [Char.ofNat (65 + i)]
      else Char.ofNat (65 + i % 26) :: (Nat.repr (i / 26)).data := by
  unfold generate_label
  by_cases h : i < 26
  · rw [if_pos h, if_pos h]
    rfl
  · rw [if_neg h, if_neg h]
    rfl

theorem generate_label_inj {i j : Nat} (h : generate_label i = generate_label j) :
    i = j := by
  have hd : (generate_label i).data = (generate_label j).data := by rw [h]
  rw [generate_label_data, generate_label_data] at hd
  by_cases hi : i < 26 <;> by_cases hj : j < 26
  · rw [if_pos hi, if_pos hj] at hd
    simp only [List.cons.injEq] at hd
    have := congrArg Char.toNat hd.1
    rw [char_toNat_ofNat (by omega), char_toNat_ofNat (by omega)] at this
    omega
  · exfalso
    rw [if_pos hi, if_neg hj] at hd
    have hlen := congrArg List.length hd
    simp only [List.length_cons, List.length_nil] at hlen
    have hne := digitsRep_ne_nil (j / 26)
    rw [← repr_data_eq] at hne
    have hz : (Nat.repr (j / 26)).data.length = 0 := by omega
    exact hne (List.eq_nil_of_length_eq_zero hz)
  · exfalso
    rw [if_neg hi, if_pos hj] at hd
    have hlen := congrArg List.length hd
    simp only [List.length_cons, List.length_nil] at hlen
    have hne := digitsRep_ne_nil (i / 26)
    rw [← repr_data_eq] at hne
    have hz : (Nat.repr (i / 26)).data.length = 0 := by omega
    exact hne (List.eq_nil_of_length_eq_zero hz)
  · rw [if_neg hi, if_neg hj] at hd
    simp only [List.cons.injEq] at hd
    have hhead := congrArg Char.toNat hd.1
    rw [char_toNat_ofNat (by omega), char_toNat_ofNat (by omega)] at hhead
    have hmod : i % 26 = j % 26 := by omega
    have htail : i / 26 = j / 26 := repr_inj (string_data_inj hd.2)
    omega

end Automata

namespace Automata

/-! ## Subset-construction loop invariants -/

theorem lookup_eq_of_mem_nodup {α β : Type} [BEq α] [LawfulBEq α]
    {l : List (α × β)} (hn : (l.map Prod.fst).Nodup) {a : α} {b : β}
    (h : (a, b) ∈ l) : l.lookup a = some b := by
  induction l with
  | nil => simp at h
  | cons p rest ih =>
      obtain ⟨p1, p2⟩ := p
      simp only [List.map_cons, List.nodup_cons] at hn
      rcases List.mem_cons.mp h with h1 | h1
      · cases h1
        simp [List.lookup]
      · have hne : a ≠ p1 := by
          intro he
          subst he
          exact hn.1 (List.mem_map.mpr ⟨(a, b), h1, rfl⟩)
        simp only [List.lookup, beq_eq_false_iff_ne.mpr hne]
        exact ih hn.2 h1

theorem lookup_map_self {α β : Type} [BEq α] [LawfulBEq α]
    {l : List α} {f : α → β} {a : α} (h : a ∈ l) :
    (l.map (fun x => (x, f x))).lookup a = some (f a) := by
  induction l with
  | nil => simp at h
  | cons x rest ih =>
      rcases List.mem_cons.mp h with h1 | h1
      · subst h1
        simp [List.lookup]
      · by_cases he : a = x
        · subst he
          simp [List.lookup]
        · simp only [List.map_cons, List.lookup, beq_eq_false_iff_ne.mpr he]
          exact ih h1

theorem lookup_map_none {α β : Type} [BEq α] [LawfulBEq α]
    {l : List α} {f : α → β} {a : α} (h : a ∉ l) :
    (l.map (fun x => (x, f x))).lookup a = none := by
  induction l with
  | nil => rfl
  | cons x rest ih =>
      have hne : a ≠ x := fun he => h (he ▸ List.mem_cons_self x rest)
      simp only [List.map_cons, List.lookup, beq_eq_false_iff_ne.mpr hne]
      exact ih (fun hc => h (List.mem_cons_of_mem x hc))

theorem foldr_union_base_subset (l : List (String × List (String × Finset String)))
    (base : Finset String) :
    base ⊆ l.foldr (fun p acc => p.2.foldr (fun e acc2 => e.2 ∪ acc2) acc) base := by
  induction l with
  | nil => exact Finset.Subset.refl _
  | cons p rest ih =>
      simp only [List.foldr_cons]
      refine ih.trans ?_
      have grow : ∀ (r : List (String × Finset String)) (acc : Finset String),
          acc ⊆ r.foldr (fun e acc2 => e.2 ∪ acc2) acc := by
        intro r
        induction r with
        | nil => intro acc; exact Finset.Subset.refl _
        | cons e er ihr =>
            intro acc
            simp only [List.foldr_cons]
            exact (ihr acc).trans Finset.subset_union_right
      exact grow _ _

theorem initial_mem_nfaUniv (N : NFAa) : N.initial_state ∈ nfaUniv N :=
  foldr_union_base_subset N.transitions {N.initial_state} (Finset.mem_singleton_self _)

theorem closure_subset_univ {N : NFAa} {S : Finset String}
    (hS : S ⊆ nfaUniv N) : get_epsilon_closure N S ⊆ nfaUniv N := by
  intro x hx
  exact ec_minimal N S (fun y => y ∈ nfaUniv N) (fun y hy => hS hy)
    (fun y _ z hz => nmoves_subset_nfaUniv N y "" hz) x hx

theorem stepSet_subset_univ (N : NFAa) (S : Finset String) (a : String) :
    stepSet N S a ⊆ nfaUniv N := by
  unfold stepSet
  apply closure_subset_univ
  intro x hx
  rcases Finset.mem_biUnion.mp hx with ⟨q, _, hq⟩
  exact nmoves_subset_nfaUniv N q a hq

/-- The transition row recorded for a processed composite state. -/
def rowOf (N : NFAa) (q : Finset String) : List (String × Finset String) :=
  (symsList N).map (fun a => (a, stepSet N q a))

/-- The composite states already popped from the worklist (the keys of
the transition dict, in order). -/
def processed (st : SubState) : List (Finset String) := st.trans.map Prod.fst

/-- Loop invariant of the `nfa_to_dfa` worklist. -/
structure SubInv (N : NFAa) (st : SubState) : Prop where
  split : st.discovered = processed st ++ st.queue
  nodup : st.discovered.Nodup
  rows : ∀ p ∈ st.trans, p.2 = rowOf N p.1
  targets : ∀ p ∈ st.trans, ∀ e ∈ p.2, e.2 ∈ st.discovered
  finals_iff : ∀ S, S ∈ st.finals ↔ S ∈ processed st ∧ S ∩ N.final_states ≠ ∅
  inU : ∀ S ∈ st.discovered, S ⊆ nfaUniv N

theorem subStep_fold_spec (N : NFAa) (q : Finset String) :
    ∀ (syms : List String) (st0 : SubState) (row0 : List (String × Finset String)),
      let res := syms.foldl
        (fun (acc : SubState × List (String × Finset String)) a =>
          let t := stepSet N q a
          let row := acc.2 ++ [(a, t)]
          if t ∈ acc.1.discovered then (acc.1, row)
          else
            ({ acc.1 with
                discovered := acc.1.discovered ++ [t],
                queue := acc.1.queue ++ [t] }, row))
        (st0, row0)
      res.2 = row0 ++ syms.map (fun a => (a, stepSet N q a)) ∧
      res.1.trans = st0.trans ∧
      res.1.finals = st0.finals ∧
      (∃ ts : List (Finset String),
        res.1.discovered = st0.discovered ++ ts ∧
        res.1.queue = st0.queue ++ ts ∧
        ts.Nodup ∧
        (∀ t ∈ ts, t ∉ st0.discovered ∧ ∃ a ∈ syms, t = stepSet N q a)) ∧
      (∀ a ∈ syms, stepSet N q a ∈ res.1.discovered) := by
  intro syms
  induction syms with
  | nil =>
      intro st0 row0
      refine ⟨by simp, rfl, rfl, ⟨[], by simp, by simp, List.nodup_nil, ?_⟩, ?_⟩
      · intro t ht; simp at ht
      · intro a ha; simp at ha
  | cons a rest ih =>
      intro st0 row0
      simp only [List.foldl_cons]
      by_cases hmem : stepSet N q a ∈ st0.discovered
      · rw [if_pos hmem]
        obtain ⟨h2, h3, h4, ⟨ts, hd, hq, hnd, hts⟩, hall⟩ :=
          ih st0 (row0 ++ [(a, stepSet N q a)])
        refine ⟨by simp [h2], h3, h4, ⟨ts, hd, hq, hnd, ?_⟩, ?_⟩
        · intro t ht
          obtain ⟨hni, b, hb, hsb⟩ := hts t ht
          exact ⟨hni, b, List.mem_cons_of_mem a hb, hsb⟩
        · intro b hb
          rcases List.mem_cons.mp hb with h1 | h1
          · subst h1
            rw [hd]
            exact List.mem_append.mpr (Or.inl hmem)
          · exact hall b h1
      · rw [if_neg hmem]
        set st1 : SubState :=
          { st0 with
              discovered := st0.discovered ++ [stepSet N q a],
              queue := st0.queue ++ [stepSet N q a] } with hst1
        obtain ⟨h2, h3, h4, ⟨ts, hd, hq, hnd, hts⟩, hall⟩ :=
          ih st1 (row0 ++ [(a, stepSet N q a)])
        refine ⟨by simp [h2], h3, h4,
          ⟨stepSet N q a :: ts, ?_, ?_, ?_, ?_⟩, ?_⟩
        · rw [hd]
          simp [hst1]
        · rw [hq]
          simp [hst1]
        · refine List.nodup_cons.mpr ⟨?_, hnd⟩
          intro hc
          have := (hts _ hc).1
          simp [hst1] at this
        · intro t ht
          rcases List.mem_cons.mp ht with h1 | h1
          · subst h1
            exact ⟨hmem, a, List.mem_cons_self a rest, rfl⟩
          · obtain ⟨hni, b, hb, hsb⟩ := hts t h1
            refine ⟨?_, b, List.mem_cons_of_mem a hb, hsb⟩
            intro hc
            exact hni (by simp [hst1, hc])
        · intro b hb
          rcases List.mem_cons.mp hb with h1 | h1
          · subst h1
            rw [hd]
            refine List.mem_append.mpr (Or.inl ?_)
            simp [hst1]
          · exact hall b h1

end Automata

namespace Automata

theorem length_le_powerset {U : Finset String} {l : List (Finset String)}
    (hn : l.Nodup) (hsub : ∀ S ∈ l, S ⊆ U) : l.length ≤ 2 ^ U.card := by
  have h1 : l.toFinset ⊆ U.powerset := fun S hS =>
    Finset.mem_powerset.mpr (hsub S (List.mem_toFinset.mp hS))
  have h2 := Finset.card_le_card h1
  rw [List.toFinset_card_of_nodup hn, Finset.card_powerset] at h2
  exact h2

theorem subFold_spec (N : NFAa) (q : Finset String) (st0 : SubState) :
    (subFold N q st0).2 = rowOf N q ∧
    (subFold N q st0).1.trans = st0.trans ∧
    (subFold N q st0).1.finals = st0.finals ∧
    (∃ ts : List (Finset String),
      (subFold N q st0).1.discovered = st0.discovered ++ ts ∧
      (subFold N q st0).1.queue = st0.queue ++ ts ∧
      ts.Nodup ∧
      (∀ t ∈ ts, t ∉ st0.discovered ∧ ∃ a ∈ symsList N, t = stepSet N q a)) ∧
    (∀ a ∈ symsList N, stepSet N q a ∈ (subFold N q st0).1.discovered) := by
  have h := subStep_fold_spec N q (symsList N) st0 []
  simp only [List.nil_append] at h
  unfold subFold rowOf
  exact h

theorem subFinals_discovered (N : NFAa) (q : Finset String) (st : SubState) :
    (subFinals N q st).discovered = st.discovered := by
  unfold subFinals; split <;> rfl

theorem subFinals_queue (N : NFAa) (q : Finset String) (st : SubState) :
    (subFinals N q st).queue = st.queue := by
  unfold subFinals; split <;> rfl

theorem subFinals_trans (N : NFAa) (q : Finset String) (st : SubState) :
    (subFinals N q st).trans = st.trans := by
  unfold subFinals; split <;> rfl

theorem subFinals_finals (N : NFAa) (q : Finset String) (st : SubState) :
    (subFinals N q st).finals =
      (if q ∩ N.final_states ≠ ∅ then insert q st.finals else st.finals) := by
  unfold subFinals; split <;> rfl

theorem subStep_discovered (N : NFAa) (q : Finset String) (st : SubState) :
    (subStep N q st).discovered = (subFold N q (subFinals N q st)).1.discovered := rfl

theorem subStep_queue (N : NFAa) (q : Finset String) (st : SubState) :
    (subStep N q st).queue = (subFold N q (subFinals N q st)).1.queue := rfl

theorem subStep_finals (N : NFAa) (q : Finset String) (st : SubState) :
    (subStep N q st).finals = (subFold N q (subFinals N q st)).1.finals := rfl

theorem subStep_trans (N : NFAa) (q : Finset String) (st : SubState) :
    (subStep N q st).trans =
      (subFold N q (subFinals N q st)).1.trans ++
        [(q, (subFold N q (subFinals N q st)).2)] := rfl

theorem subStep_inv (N : NFAa) (st : SubState) (q : Finset String)
    (rest : List (Finset String)) (hq : st.queue = q :: rest)
    (hinv : SubInv N st) :
    SubInv N (subStep N q { st with queue := rest }) ∧
    ∃ ts : List (Finset String),
      (subStep N q { st with queue := rest }).discovered = st.discovered ++ ts ∧
      (subStep N q { st with queue := rest }).queue = rest ++ ts := by
  obtain ⟨h2, h3, h4, ⟨ts, hd, hqq, hnd, hts⟩, hall⟩ :=
    subFold_spec N q (subFinals N q { st with queue := rest })
  rw [subFinals_discovered] at hd hts
  rw [subFinals_queue] at hqq
  rw [subFinals_trans] at h3
  rw [subFinals_finals] at h4
  have hdisc : (subStep N q { st with queue := rest }).discovered =
      st.discovered ++ ts := by rw [subStep_discovered, hd]
  have hqueue : (subStep N q { st with queue := rest }).queue = rest ++ ts := by
    rw [subStep_queue, hqq]
  have htrans : (subStep N q { st with queue := rest }).trans =
      st.trans ++ [(q, rowOf N q)] := by
    rw [subStep_trans, h3, h2]
  have hfin : (subStep N q { st with queue := rest }).finals =
      (if q ∩ N.final_states ≠ ∅ then insert q st.finals else st.finals) := by
    rw [subStep_finals, h4]
  have hproc : processed (subStep N q { st with queue := rest }) =
      processed st ++ [q] := by
    unfold processed
    rw [htrans]
    simp [processed]
  refine ⟨⟨?_, ?_, ?_, ?_, ?_, ?_⟩, ts, hdisc, hqueue⟩
  · rw [hdisc, hqueue, hproc, hinv.split, hq]
    simp
  · rw [hdisc]
    refine List.Nodup.append hinv.nodup hnd ?_
    intro S hS hS2
    exact (hts S hS2).1 hS
  · intro p hp
    rw [htrans] at hp
    rcases List.mem_append.mp hp with h5 | h5
    · exact hinv.rows p h5
    · simp only [List.mem_singleton] at h5
      subst h5
      rfl
  · intro p hp e he
    rw [hdisc]
    rw [htrans] at hp
    rcases List.mem_append.mp hp with h5 | h5
    · exact List.mem_append.mpr (Or.inl (hinv.targets p h5 e he))
    · simp only [List.mem_singleton] at h5
      subst h5
      simp only [rowOf] at he
      rcases List.mem_map.mp he with ⟨a, ha, hae⟩
      have := hall a ha
      rw [hd] at this
      rw [← hae]
      exact this
  · intro S
    rw [hfin, hproc]
    by_cases hf : q ∩ N.final_states ≠ ∅
    · rw [if_pos hf]
      simp only [Finset.mem_insert, hinv.finals_iff S, List.mem_append,
        List.mem_singleton]
      constructor
      · rintro (rfl | ⟨hp, hfS⟩)
        · exact ⟨Or.inr rfl, hf⟩
        · exact ⟨Or.inl hp, hfS⟩
      · rintro ⟨hp | hp, hfS⟩
        · exact Or.inr ⟨hp, hfS⟩
        · exact Or.inl hp
    · rw [if_neg hf]
      simp only [hinv.finals_iff S, List.mem_append, List.mem_singleton]
      constructor
      · rintro ⟨hp, hfS⟩
        exact ⟨Or.inl hp, hfS⟩
      · rintro ⟨hp | hp, hfS⟩
        · exact ⟨hp, hfS⟩
        · subst hp
          exact absurd hfS hf
  · intro S hS
    rw [hdisc] at hS
    rcases List.mem_append.mp hS with h5 | h5
    · exact hinv.inU S h5
    · obtain ⟨_, a, _, hsa⟩ := hts S h5
      subst hsa
      exact stepSet_subset_univ N q a

end Automata

namespace Automata

theorem subLoop_spec (N : NFAa) :
    ∀ (fuel : Nat) (st : SubState), SubInv N st →
      st.queue.length + (2 ^ (nfaUniv N).card - st.discovered.length) ≤ fuel →
      (subLoop N fuel st).queue = [] ∧ SubInv N (subLoop N fuel st) ∧
      ∀ S ∈ st.discovered, S ∈ (subLoop N fuel st).discovered := by
  intro fuel
  induction fuel with
  | zero =>
      intro st hinv hf
      have hq : st.queue = [] := List.eq_nil_of_length_eq_zero (by omega)
      exact ⟨hq, hinv, fun S hS => hS⟩
  | succ fuel ih =>
      intro st hinv hf
      cases hq : st.queue with
      | nil =>
          simp only [subLoop, hq]
          exact ⟨trivial, hinv, fun S hS => hS⟩
      | cons q rest =>
          obtain ⟨hinv', ts, hd, hqq⟩ := subStep_inv N st q rest hq hinv
          have hlen : (subStep N q { st with queue := rest }).discovered.length ≤
              2 ^ (nfaUniv N).card :=
            length_le_powerset hinv'.nodup hinv'.inU
          have harith : (subStep N q { st with queue := rest }).queue.length +
              (2 ^ (nfaUniv N).card -
                (subStep N q { st with queue := rest }).discovered.length) ≤ fuel := by
            rw [hd, hqq] at *
            rw [hq] at hf
            simp only [List.length_append, List.length_cons] at *
            omega
          obtain ⟨he, hi2, hmono⟩ := ih _ hinv' harith
          refine ⟨?_, ?_, ?_⟩
          · simp only [subLoop, hq]
            exact he
          · simp only [subLoop, hq]
            exact hi2
          · intro S hS
            simp only [subLoop, hq]
            refine hmono S ?_
            rw [hd]
            exact List.mem_append.mpr (Or.inl hS)

/-- The initial composite state: epsilon closure of the NFA initial
state. -/
def initComposite (N : NFAa) : Finset String :=
  get_epsilon_closure N {N.initial_state}

/-- The worklist state after the `nfa_to_dfa` loop has run. -/
def endState (N : NFAa) : SubState :=
  subLoop N (subsetFuel N) ⟨[initComposite N], [], ∅, [initComposite N]⟩

theorem nfa_to_dfa_eq (N : NFAa) :
    nfa_to_dfa N =
      ({ states := ((endState N).discovered.map (labelOf (endState N).discovered)).toFinset
         input_symbols := N.input_symbols.erase ""
         transitions := (endState N).trans.map
           (fun p => (labelOf (endState N).discovered p.1,
             p.2.map (fun e => (e.1, labelOf (endState N).discovered e.2))))
         initial_state := labelOf (endState N).discovered (initComposite N)
         final_states := (endState N).finals.image (labelOf (endState N).discovered) },
       (endState N).discovered.enum.map (fun p => (p.2, generate_label p.1))) := rfl

theorem initState_inv (N : NFAa) :
    SubInv N ⟨[initComposite N], [], ∅, [initComposite N]⟩ := by
  refine ⟨rfl, List.nodup_singleton _, ?_, ?_, ?_, ?_⟩
  · intro p hp; simp at hp
  · intro p hp; simp at hp
  · intro S
    simp [processed]
  · intro S hS
    simp only [List.mem_singleton] at hS
    subst hS
    exact closure_subset_univ (by
      intro x hx
      rw [Finset.mem_singleton.mp hx]
      exact initial_mem_nfaUniv N)

theorem endState_spec (N : NFAa) :
    (endState N).queue = [] ∧ SubInv N (endState N) ∧
      initComposite N ∈ (endState N).discovered := by
  have h := subLoop_spec N (subsetFuel N)
    ⟨[initComposite N], [], ∅, [initComposite N]⟩ (initState_inv N) (by
      have : 0 < 2 ^ (nfaUniv N).card := pow_pos (by norm_num) _
      simp only [List.length_singleton, subsetFuel]
      omega)
  exact ⟨h.1, h.2.1, h.2.2 _ (List.mem_singleton_self _)⟩

theorem endState_discovered_eq (N : NFAa) :
    (endState N).discovered = processed (endState N) := by
  have h := (endState_spec N).2.1.split
  rw [(endState_spec N).1] at h
  simpa using h

theorem labelOf_inj_on {l : List (Finset String)}
    {S T : Finset String} (hS : S ∈ l) (hT : T ∈ l)
    (h : labelOf l S = labelOf l T) : S = T := by
  have hi := generate_label_inj h
  have h1 : l.indexOf S < l.length := List.indexOf_lt_length.mpr hS
  have h2 : l.indexOf T < l.length := List.indexOf_lt_length.mpr hT
  have e1 : l[l.indexOf S] = S := List.getElem_indexOf h1
  have e2 : l[l.indexOf T] = T := List.getElem_indexOf h2
  rw [← e1, ← e2]
  simp [hi]

end Automata

namespace Automata

theorem option_bind_some {α β : Type} (x : α) (f : α → Option β) :
    (some x).bind f = f x := rfl

theorem built_keys_nodup (N : NFAa) :
    (((nfa_to_dfa N).1).transitions.map Prod.fst).Nodup := by
  rw [nfa_to_dfa_eq]
  simp only [List.map_map]
  have heq : (Prod.fst ∘ fun p : Finset String × List (String × Finset String) =>
      (labelOf (endState N).discovered p.1,
        p.2.map (fun e => (e.1, labelOf (endState N).discovered e.2)))) =
      (fun p => labelOf (endState N).discovered p.1) := rfl
  rw [heq]
  have h2 : (fun p : Finset String × List (String × Finset String) =>
      labelOf (endState N).discovered p.1) =
      (labelOf (endState N).discovered) ∘ Prod.fst := rfl
  rw [h2, ← List.map_map]
  have hnd : (processed (endState N)).Nodup := by
    rw [← endState_discovered_eq]
    exact (endState_spec N).2.1.nodup
  refine List.Nodup.map_on ?_ hnd
  intro S hS T hT h
  have hS' : S ∈ (endState N).discovered := by
    rw [endState_discovered_eq]; exact hS
  have hT' : T ∈ (endState N).discovered := by
    rw [endState_discovered_eq]; exact hT
  exact labelOf_inj_on hS' hT' h

theorem mem_processed_row (N : NFAa) {S : Finset String}
    (hS : S ∈ processed (endState N)) :
    (S, rowOf N S) ∈ (endState N).trans := by
  unfold processed at hS
  rcases List.mem_map.mp hS with ⟨p, hp, hfst⟩
  have := (endState_spec N).2.1.rows p hp
  have hpe : p = (S, rowOf N S) := by
    obtain ⟨p1, p2⟩ := p
    simp only at hfst this
    subst hfst
    rw [this]
  rw [← hpe]
  exact hp

theorem built_lookup (N : NFAa) {S : Finset String}
    (hS : S ∈ processed (endState N)) :
    ((nfa_to_dfa N).1).transitions.lookup (labelOf (endState N).discovered S) =
      some ((rowOf N S).map
        (fun e => (e.1, labelOf (endState N).discovered e.2))) := by
  have hmem : (labelOf (endState N).discovered S,
      (rowOf N S).map (fun e => (e.1, labelOf (endState N).discovered e.2))) ∈
        ((nfa_to_dfa N).1).transitions := by
    rw [nfa_to_dfa_eq]
    exact List.mem_map.mpr ⟨(S, rowOf N S), mem_processed_row N hS, rfl⟩
  exact lookup_eq_of_mem_nodup (built_keys_nodup N) hmem

theorem built_finals_mem (N : NFAa) {S : Finset String}
    (hS : S ∈ processed (endState N)) :
    (labelOf (endState N).discovered S ∈ ((nfa_to_dfa N).1).final_states) ↔
      S ∩ N.final_states ≠ ∅ := by
  rw [nfa_to_dfa_eq]
  simp only [Finset.mem_image]
  constructor
  · rintro ⟨T, hT, hlab⟩
    have hTp : T ∈ processed (endState N) ∧ T ∩ N.final_states ≠ ∅ :=
      ((endState_spec N).2.1.finals_iff T).mp hT
    have : T = S := by
      refine labelOf_inj_on ?_ ?_ hlab
      · rw [endState_discovered_eq]; exact hTp.1
      · rw [endState_discovered_eq]; exact hS
    rw [← this]
    exact hTp.2
  · intro hf
    exact ⟨S, ((endState_spec N).2.1.finals_iff S).mpr ⟨hS, hf⟩, rfl⟩

/-- Subset-construction acceptance: fold the composite-state transition
over the word and test intersection with the NFA final states. -/
def foldAccept (N : NFAa) (S : Finset String) (w : List String) : Prop :=
  (w.foldl (stepSet N) S) ∩ N.final_states ≠ ∅

theorem accept_bridge (N : NFAa) :
    ∀ (w : List String), (∀ a ∈ w, a ∈ symsList N) →
    ∀ S, S ∈ processed (endState N) →
      (acceptFrom (nfa_to_dfa N).1 (labelOf (endState N).discovered S) w = true ↔
        foldAccept N S w) := by
  intro w
  induction w with
  | nil =>
      intro _ S hS
      simp only [acceptFrom, foldAccept, List.foldl_nil, decide_eq_true_eq]
      exact built_finals_mem N hS
  | cons a w ih =>
      intro hw S hS
      have ha : a ∈ symsList N := hw a (List.mem_cons_self a w)
      have hrow := built_lookup N hS
      have hrowmap : (rowOf N S).map
          (fun e => (e.1, labelOf (endState N).discovered e.2)) =
          (symsList N).map
            (fun b => (b, labelOf (endState N).discovered (stepSet N S b))) := by
        unfold rowOf
        rw [List.map_map]
        rfl
      have hlook : ((rowOf N S).map
          (fun e => (e.1, labelOf (endState N).discovered e.2))).lookup a =
          some (labelOf (endState N).discovered (stepSet N S a)) := by
        rw [hrowmap]
        exact lookup_map_self ha
      have htarget : stepSet N S a ∈ processed (endState N) := by
        rw [← endState_discovered_eq]
        refine (endState_spec N).2.1.targets (S, rowOf N S) (mem_processed_row N hS)
          (a, stepSet N S a) ?_
        unfold rowOf
        exact List.mem_map.mpr ⟨a, ha, rfl⟩
      have hmain := ih (fun b hb => hw b (List.mem_cons_of_mem a hb))
        (stepSet N S a) htarget
      simp only [acceptFrom, hrow, option_bind_some, hlook]
      simpa [foldAccept] using hmain

theorem epsReach_naccept {N : NFAa} {q r : String} {w : List String}
    (h : epsReach N q r) (ha : NAccept N r w) : NAccept N q w := by
  induction h with
  | refl => exact ha
  | tail hqr hmove ih => exact ih (NAccept.eps hmove ha)

theorem saccept_nil_aux {N : NFAa} {T : Finset String}
    (hT : ∀ x ∈ T, nmoves N x "" ⊆ T) {q : String} {w : List String}
    (hacc : NAccept N q w) : w = [] → q ∈ T → T ∩ N.final_states ≠ ∅ := by
  induction hacc with
  | final hq =>
      intro _ hqT
      intro hc
      have : _ ∈ T ∩ N.final_states := Finset.mem_inter.mpr ⟨hqT, hq⟩
      rw [hc] at this
      simp at this
  | eps hmove _ ih =>
      intro hw hqT
      exact ih hw (hT _ hqT hmove)
  | step hmove _ _ =>
      intro hw
      simp at hw

theorem saccept_nil_iff {N : NFAa} {T : Finset String}
    (hT : ∀ x ∈ T, nmoves N x "" ⊆ T) :
    (∃ q ∈ T, NAccept N q []) ↔ T ∩ N.final_states ≠ ∅ := by
  constructor
  · rintro ⟨q, hq, hacc⟩
    exact saccept_nil_aux hT hacc rfl hq
  · intro h
    obtain ⟨q, hq⟩ := Finset.nonempty_iff_ne_empty.mpr h
    rcases Finset.mem_inter.mp hq with ⟨h1, h2⟩
    exact ⟨q, h1, NAccept.final h2⟩

theorem saccept_cons_aux {N : NFAa} {T : Finset String}
    (hT : ∀ x ∈ T, nmoves N x "" ⊆ T) {a : String} {w : List String}
    {q : String} {v : List String} (hacc : NAccept N q v) :
    v = a :: w → q ∈ T → ∃ q' ∈ stepSet N T a, NAccept N q' w := by
  induction hacc with
  | final _ =>
      intro hw
      simp at hw
  | eps hmove _ ih =>
      intro hw hqT
      exact ih hw (hT _ hqT hmove)
  | @step q1 q2 b w1 hmove hacc' ih =>
      intro hw hqT
      injection hw with h1 h2
      subst h1
      subst h2
      refine ⟨q2, ?_, hacc'⟩
      refine ec_subset N _ ?_
      exact Finset.mem_biUnion.mpr ⟨q1, hqT, hmove⟩

theorem saccept_cons_iff {N : NFAa} {T : Finset String}
    (hT : ∀ x ∈ T, nmoves N x "" ⊆ T) {a : String} {w : List String} :
    (∃ q ∈ T, NAccept N q (a :: w)) ↔
      (∃ q' ∈ stepSet N T a, NAccept N q' w) := by
  constructor
  · rintro ⟨q, hq, hacc⟩
    exact saccept_cons_aux hT hacc rfl hq
  · rintro ⟨q', hq', hacc⟩
    rcases mem_ec_iff.mp hq' with ⟨m, hm, hreach⟩
    rcases Finset.mem_biUnion.mp hm with ⟨q, hqT, hmove⟩
    exact ⟨q, hqT, NAccept.step hmove (epsReach_naccept hreach hacc)⟩

theorem stepSet_closed (N : NFAa) (T : Finset String) (a : String) :
    ∀ x ∈ stepSet N T a, nmoves N x "" ⊆ stepSet N T a :=
  ec_closed N _

theorem foldAccept_iff {N : NFAa} :
    ∀ (w : List String) (S : Finset String),
      (∀ x ∈ S, nmoves N x "" ⊆ S) →
      (foldAccept N S w ↔ ∃ q ∈ S, NAccept N q w) := by
  intro w
  induction w with
  | nil =>
      intro S hS
      exact (saccept_nil_iff hS).symm
  | cons a w ih =>
      intro S hS
      have h1 : foldAccept N S (a :: w) = foldAccept N (stepSet N S a) w := rfl
      rw [h1, ih (stepSet N S a) (stepSet_closed N S a)]
      exact (saccept_cons_iff hS).symm

theorem naccept_closure_iff (N : NFAa) (S : Finset String) (w : List String) :
    (∃ q ∈ get_epsilon_closure N S, NAccept N q w) ↔ (∃ q ∈ S, NAccept N q w) := by
  constructor
  · rintro ⟨q, hq, hacc⟩
    rcases mem_ec_iff.mp hq with ⟨s, hs, hreach⟩
    exact ⟨s, hs, epsReach_naccept hreach hacc⟩
  · rintro ⟨q, hq, hacc⟩
    exact ⟨q, ec_subset N S hq, hacc⟩

theorem subset_construction_correct (N : NFAa) (w : List String)
    (hw : ∀ a ∈ w, a ∈ N.input_symbols ∧ a ≠ "") :
    dfaAccepts (nfa_to_dfa N).1 w = true ↔ NAccept N N.initial_state w := by
  have hw' : ∀ a ∈ w, a ∈ symsList N := by
    intro a haw
    unfold symsList
    rw [List.mem_filter]
    refine ⟨sortedFin_mem.mpr (hw a haw).1, ?_⟩
    simp [(hw a haw).2]
  have hinit : initComposite N ∈ processed (endState N) := by
    rw [← endState_discovered_eq]
    exact (endState_spec N).2.2
  have hstart : ((nfa_to_dfa N).1).initial_state =
      labelOf (endState N).discovered (initComposite N) := by
    rw [nfa_to_dfa_eq]
  unfold dfaAccepts
  rw [hstart, accept_bridge N w hw' (initComposite N) hinit]
  unfold initComposite
  rw [foldAccept_iff w _ (ec_closed N _), naccept_closure_iff]
  simp

end Automata

namespace Automata

/-! ## Completeness of the constructed DFA and the empty composite state -/

theorem closureLoop_nil_stack (N : NFAa) :
    ∀ (fuel : Nat) (cl : Finset String), closureLoop N fuel cl [] = cl := by
  intro fuel cl
  cases fuel <;> rfl

theorem closure_empty (N : NFAa) : get_epsilon_closure N ∅ = ∅ := by
  unfold get_epsilon_closure
  rw [sortedFin_empty, closureLoop_nil_stack]

theorem stepSet_empty (N : NFAa) (a : String) : stepSet N ∅ a = ∅ := by
  unfold stepSet
  rw [Finset.biUnion_empty, closure_empty]

theorem nodup_indexOf_get {l : List (Finset String)} (hn : l.Nodup) :
    ∀ {i : Nat} {x : Finset String}, l.get? i = some x → l.indexOf x = i := by
  induction l with
  | nil => intro i x h; simp at h
  | cons y t ih =>
      intro i x h
      cases i with
      | zero =>
          simp only [List.get?_cons_zero, Option.some_inj] at h
          subst h
          exact List.indexOf_cons_self _ _
      | succ i =>
          simp only [List.get?_cons_succ] at h
          have hxt : x ∈ t := List.get?_mem h
          have hne : x ≠ y := by
            intro he
            subst he
            exact (List.nodup_cons.mp hn).1 hxt
          rw [List.indexOf_cons_ne t (fun hc => hne hc.symm),
            ih (List.nodup_cons.mp hn).2 h]

theorem mapping_mem (N : NFAa) {S : Finset String} {L : String}
    (h : (S, L) ∈ (nfa_to_dfa N).2) :
    S ∈ (endState N).discovered ∧ L = labelOf (endState N).discovered S := by
  rw [nfa_to_dfa_eq] at h
  rcases List.mem_map.mp h with ⟨p, hp, hpe⟩
  have hget : (endState N).discovered.get? p.1 = some p.2 :=
    List.mem_enum_iff_get?.mp hp
  have hmem : p.2 ∈ (endState N).discovered := List.get?_mem hget
  have hidx : (endState N).discovered.indexOf p.2 = p.1 :=
    nodup_indexOf_get (endState_spec N).2.1.nodup hget
  have hS : p.2 = S := congrArg Prod.fst hpe
  have hL : generate_label p.1 = L := congrArg Prod.snd hpe
  subst hS
  refine ⟨hmem, ?_⟩
  have hlb : labelOf (endState N).discovered p.2 = generate_label p.1 := by
    unfold labelOf
    rw [hidx]
  rw [hlb]
  exact hL.symm

theorem dfa_states_mem (N : NFAa) {L : String} :
    L ∈ ((nfa_to_dfa N).1).states ↔
      ∃ S ∈ (endState N).discovered, labelOf (endState N).discovered S = L := by
  rw [nfa_to_dfa_eq]
  simp only [List.mem_toFinset, List.mem_map]

theorem nfa_to_dfa_row_complete (N : NFAa) :
    ∀ L ∈ ((nfa_to_dfa N).1).states,
      ∃ row, ((nfa_to_dfa N).1).transitions.lookup L = some row ∧
        row.map Prod.fst = symsList N := by
  intro L hL
  rcases (dfa_states_mem N).mp hL with ⟨S, hS, hlab⟩
  have hSp : S ∈ processed (endState N) := by
    rw [← endState_discovered_eq]; exact hS
  refine ⟨(rowOf N S).map (fun e => (e.1, labelOf (endState N).discovered e.2)),
    ?_, ?_⟩
  · rw [← hlab]
    exact built_lookup N hSp
  · unfold rowOf
    rw [List.map_map, List.map_map]
    have hfun : ((Prod.fst ∘ fun e : String × Finset String =>
        (e.1, labelOf (endState N).discovered e.2)) ∘
        (fun a => (a, stepSet N S a))) = fun a => a := rfl
    rw [hfun, List.map_id']

theorem nfa_to_dfa_empty_state (N : NFAa) :
    ∀ L : String, ((∅ : Finset String), L) ∈ (nfa_to_dfa N).2 →
      L ∈ ((nfa_to_dfa N).1).states ∧
      L ∉ ((nfa_to_dfa N).1).final_states ∧
      ((nfa_to_dfa N).1).transitions.lookup L =
        some ((symsList N).map (fun a => (a, L))) := by
  intro L h
  obtain ⟨hmem, hlab⟩ := mapping_mem N h
  have hSp : (∅ : Finset String) ∈ processed (endState N) := by
    rw [← endState_discovered_eq]; exact hmem
  refine ⟨(dfa_states_mem N).mpr ⟨∅, hmem, hlab.symm⟩, ?_, ?_⟩
  · intro hfin
    rw [hlab] at hfin
    have := (built_finals_mem N hSp).mp hfin
    simp at this
  · have hrow := built_lookup N hSp
    rw [← hlab] at hrow
    rw [hrow]
    congr 1
    unfold rowOf
    rw [List.map_map]
    refine List.map_congr_left ?_
    intro a _
    simp only [Function.comp_apply, stepSet_empty, hlab]

end Automata

namespace Automata

/-! ## Concrete automata used by the claims -/

/-- The spec's concrete test NFA: states q0,q1, alphabet 0,1, transitions
q0-0->{q0,q1}, q0-1->{q0}, q1-1->{q1}, initial q0, final {q1}. -/
def exampleNFA : NFAa :=
  { states := {"q0", "q1"}
    input_symbols := {"0", "1"}
    transitions := [("q0", [("0", {"q0", "q1"}), ("1", {"q0"})]),
                    ("q1", [("1", {"q1"})])]
    initial_state := "q0"
    final_states := {"q1"} }

/-- A one-state NFA with no transition on symbol 1: subset construction
discovers the empty composite state. -/
def witnessNFA : NFAa :=
  { states := {"q0"}
    input_symbols := {"0", "1"}
    transitions := [("q0", [("0", {"q0"})])]
    initial_state := "q0"
    final_states := {"q0"} }

/-- C1: for every NFA (possibly with epsilon transitions) and every word
over the NFA's alphabet with epsilon removed, the DFA produced by
`nfa_to_dfa` accepts the word iff the NFA accepts it. -/
theorem C1_nfa_to_dfa_language_equivalence (N : NFAa) (w : List String)
    (hw : ∀ a ∈ w, a ∈ N.input_symbols ∧ a ≠ "") :
    dfaAccepts (nfa_to_dfa N).1 w = true ↔ NAccept N N.initial_state w :=
  subset_construction_correct N w hw

/-- Witness for C1 at the spec's concrete NFA and the word "01". -/
theorem C1_witness :
    (∀ a ∈ ["0", "1"], a ∈ exampleNFA.input_symbols ∧ a ≠ "") ∧
    (dfaAccepts (nfa_to_dfa exampleNFA).1 ["0", "1"] = true ↔
      NAccept exampleNFA exampleNFA.initial_state ["0", "1"]) :=
  ⟨by decide, C1_nfa_to_dfa_language_equivalence exampleNFA ["0", "1"] (by decide)⟩

/-- C2 counterexample: the claim says the DFA built from the spec's
concrete NFA rejects "0" and "10"; in fact it accepts both (the NFA
itself accepts them: q0-0->q1 ends final, and q0-1->q0-0->q1 ends
final). -/
theorem C2_counterexample :
    dfaAccepts (nfa_to_dfa exampleNFA).1 ["0"] = true ∧
    dfaAccepts (nfa_to_dfa exampleNFA).1 ["1", "0"] = true := by decide

/-- C2 (amended): the DFA produced by `nfa_to_dfa` from the spec's
concrete NFA accepts "01" and "011", and it also accepts "0" and "10"
and rejects "1", "11" and the empty word (its language is the words
containing at least one 0). -/
theorem C2_amended_acceptance :
    dfaAccepts (nfa_to_dfa exampleNFA).1 ["0", "1"] = true ∧
    dfaAccepts (nfa_to_dfa exampleNFA).1 ["0", "1", "1"] = true ∧
    dfaAccepts (nfa_to_dfa exampleNFA).1 ["0"] = true ∧
    dfaAccepts (nfa_to_dfa exampleNFA).1 ["1", "0"] = true ∧
    dfaAccepts (nfa_to_dfa exampleNFA).1 ["1"] = false ∧
    dfaAccepts (nfa_to_dfa exampleNFA).1 ["1", "1"] = false ∧
    dfaAccepts (nfa_to_dfa exampleNFA).1 [] = false := by decide

/-- C5: for every NFA and every set S of its states, the epsilon closure
contains S, is closed under epsilon transitions, and is idempotent. -/
theorem C5_epsilon_closure_properties (N : NFAa) (S : Finset String)
    (_hS : S ⊆ N.states) :
    S ⊆ get_epsilon_closure N S ∧
    (∀ q ∈ get_epsilon_closure N S,
      nmoves N q "" ⊆ get_epsilon_closure N S) ∧
    get_epsilon_closure N (get_epsilon_closure N S) = get_epsilon_closure N S :=
  ⟨ec_subset N S, ec_closed N S, ec_idem N S⟩

/-- Witness for C5 at the spec's concrete NFA with seed set {q0}. -/
theorem C5_witness :
    (({"q0"} : Finset String) ⊆ exampleNFA.states) ∧
    (({"q0"} : Finset String) ⊆ get_epsilon_closure exampleNFA {"q0"} ∧
      (∀ q ∈ get_epsilon_closure exampleNFA {"q0"},
        nmoves exampleNFA q "" ⊆ get_epsilon_closure exampleNFA {"q0"}) ∧
      get_epsilon_closure exampleNFA (get_epsilon_closure exampleNFA {"q0"}) =
        get_epsilon_closure exampleNFA {"q0"}) :=
  ⟨by decide, C5_epsilon_closure_properties exampleNFA {"q0"} (by decide)⟩

/-- C9: the DFA built by `nfa_to_dfa` is complete: its alphabet is the
NFA's alphabet minus epsilon, every DFA state's transition row covers
exactly those symbols, and when the empty composite state is discovered
it is an ordinary labeled non-final state whose transitions all loop back
to itself. -/
theorem C9_constructed_dfa_complete (N : NFAa) :
    (∀ a, a ∈ ((nfa_to_dfa N).1).input_symbols ↔ a ∈ symsList N) ∧
    (∀ L ∈ ((nfa_to_dfa N).1).states,
      ∃ row, ((nfa_to_dfa N).1).transitions.lookup L = some row ∧
        row.map Prod.fst = symsList N) ∧
    (∀ L : String, ((∅ : Finset String), L) ∈ (nfa_to_dfa N).2 →
      L ∈ ((nfa_to_dfa N).1).states ∧
      L ∉ ((nfa_to_dfa N).1).final_states ∧
      ((nfa_to_dfa N).1).transitions.lookup L =
        some ((symsList N).map (fun a => (a, L)))) := by
  refine ⟨?_, nfa_to_dfa_row_complete N, nfa_to_dfa_empty_state N⟩
  intro a
  rw [nfa_to_dfa_eq]
  show a ∈ N.input_symbols.erase "" ↔ _
  rw [Finset.mem_erase]
  unfold symsList
  rw [List.mem_filter]
  simp only [sortedFin_mem, decide_eq_true_eq]
  tauto

/-- Witness for C9 at a one-state NFA whose subset construction discovers
the empty composite state (labeled B). -/
theorem C9_witness :
    (("0" ∈ ((nfa_to_dfa witnessNFA).1).input_symbols ↔
        "0" ∈ symsList witnessNFA) ∧
      ("A" ∈ ((nfa_to_dfa witnessNFA).1).states) ∧
      (∃ row, ((nfa_to_dfa witnessNFA).1).transitions.lookup "A" = some row ∧
        row.map Prod.fst = symsList witnessNFA)) ∧
    ((((∅ : Finset String), "B") ∈ (nfa_to_dfa witnessNFA).2) ∧
      ("B" ∈ ((nfa_to_dfa witnessNFA).1).states ∧
        "B" ∉ ((nfa_to_dfa witnessNFA).1).final_states ∧
        ((nfa_to_dfa witnessNFA).1).transitions.lookup "B" =
          some ((symsList witnessNFA).map (fun a => (a, "B"))))) :=
  ⟨⟨(C9_constructed_dfa_complete witnessNFA).1 "0", by decide,
    (C9_constructed_dfa_complete witnessNFA).2.1 "A" (by decide)⟩,
   by decide,
   (C9_constructed_dfa_complete witnessNFA).2.2 "B" (by decide)⟩

end Automata

namespace Automata

/-! ## Minimizer: partition bookkeeping -/

/-- Union of a list of groups. -/
def partsUnion (l : List (Finset String)) : Finset String :=
  l.foldr (· ∪ ·) ∅

theorem mem_partsUnion {l : List (Finset String)} {x : String} :
    x ∈ partsUnion l ↔ ∃ g ∈ l, x ∈ g := by
  induction l with
  | nil => simp [partsUnion]
  | cons g rest ih =>
      simp only [partsUnion, List.foldr_cons, Finset.mem_union]
      rw [show List.foldr (· ∪ ·) ∅ rest = partsUnion rest from rfl]
      simp [ih]

/-- Union of the value groups of a signature-keyed accumulator. -/
def groupsUnion (l : List (List Int × Finset String)) : Finset String :=
  l.foldr (fun p acc => p.2 ∪ acc) ∅

theorem mem_groupsUnion {l : List (List Int × Finset String)} {x : String} :
    x ∈ groupsUnion l ↔ ∃ p ∈ l, x ∈ p.2 := by
  induction l with
  | nil => simp [groupsUnion]
  | cons g rest ih =>
      simp only [groupsUnion, List.foldr_cons, Finset.mem_union]
      rw [show List.foldr (fun p acc => p.2 ∪ acc) ∅ rest = groupsUnion rest from rfl]
      simp [ih]

/-- Invariant of the `sub_groups` accumulator: nonempty pairwise-disjoint
groups, each group constant under the given signature assignment. -/
structure AccOK (d : DFAa) (parts : List (Finset String))
    (acc : List (List Int × Finset String)) : Prop where
  nonempty : ∀ p ∈ acc, p.2.Nonempty
  disj : List.Pairwise (fun p q => Disjoint p.2 q.2) acc
  sig : ∀ p ∈ acc, ∀ x ∈ p.2, signature d parts x = .ok p.1

theorem addToGroup_union (acc : List (List Int × Finset String))
    (sig : List Int) (s : String) :
    groupsUnion (addToGroup acc sig s) = insert s (groupsUnion acc) := by
  induction acc with
  | nil => simp [addToGroup, groupsUnion]
  | cons p rest ih =>
      obtain ⟨k, g⟩ := p
      by_cases hk : k = sig
      · simp only [addToGroup, if_pos hk, groupsUnion, List.foldr_cons]
        rw [show List.foldr (fun p acc => p.2 ∪ acc) ∅ rest = groupsUnion rest
          from rfl]
        ext x
        simp only [Finset.mem_union, Finset.mem_insert]
        tauto
      · simp only [addToGroup, if_neg hk, groupsUnion, List.foldr_cons]
        rw [show List.foldr (fun p acc => p.2 ∪ acc) ∅ (addToGroup rest sig s) =
          groupsUnion (addToGroup rest sig s) from rfl, ih,
          show List.foldr (fun p acc => p.2 ∪ acc) ∅ rest = groupsUnion rest
            from rfl]
        ext x
        simp only [Finset.mem_union, Finset.mem_insert]
        tauto

theorem addToGroup_ok {d : DFAa} {parts : List (Finset String)}
    {acc : List (List Int × Finset String)} {sig : List Int} {s : String}
    (hacc : AccOK d parts acc) (hfresh : s ∉ groupsUnion acc)
    (hsig : signature d parts s = .ok sig) :
    AccOK d parts (addToGroup acc sig s) := by
  induction acc with
  | nil =>
      refine ⟨?_, ?_, ?_⟩
      · intro p hp
        simp only [addToGroup, List.mem_singleton] at hp
        subst hp
        exact Finset.singleton_nonempty s
      · simp [addToGroup]
      · intro p hp x hx
        simp only [addToGroup, List.mem_singleton] at hp
        subst hp
        simp only [Finset.mem_singleton] at hx
        subst hx
        exact hsig
  | cons p rest ih =>
      obtain ⟨k, g⟩ := p
      have hrest : AccOK d parts rest :=
        ⟨fun q hq => hacc.nonempty q (List.mem_cons_of_mem _ hq),
         (List.pairwise_cons.mp hacc.disj).2,
         fun q hq => hacc.sig q (List.mem_cons_of_mem _ hq)⟩
      have hfg : s ∉ g := fun hc =>
        hfresh (mem_groupsUnion.mpr ⟨(k, g), List.mem_cons_self _ _, hc⟩)
      have hfrest : s ∉ groupsUnion rest := fun hc => by
        rcases mem_groupsUnion.mp hc with ⟨q, hq, hxq⟩
        exact hfresh (mem_groupsUnion.mpr ⟨q, List.mem_cons_of_mem _ hq, hxq⟩)
      by_cases hk : k = sig
      · subst hk
        refine ⟨?_, ?_, ?_⟩
        · intro q hq
          simp only [addToGroup, if_pos rfl] at hq
          rcases List.mem_cons.mp hq with h1 | h1
          · subst h1
            exact Finset.insert_nonempty s g
          · exact hrest.nonempty q h1
        · simp only [addToGroup, if_pos rfl]
          refine List.pairwise_cons.mpr ⟨?_, hrest.disj⟩
          intro q hq
          have hd := (List.pairwise_cons.mp hacc.disj).1 q hq
          simp only at hd ⊢
          refine Finset.disjoint_left.mpr ?_
          intro x hx
          rcases Finset.mem_insert.mp hx with rfl | hxg
          · intro hc
            exact hfrest (mem_groupsUnion.mpr ⟨q, hq, hc⟩)
          · exact fun hc => (Finset.disjoint_left.mp hd) hxg hc
        · intro q hq x hx
          simp only [addToGroup, if_pos rfl] at hq
          rcases List.mem_cons.mp hq with h1 | h1
          · subst h1
            simp only at hx
            rcases Finset.mem_insert.mp hx with rfl | hxg
            · exact hsig
            · exact hacc.sig (k, g) (List.mem_cons_self _ _) x hxg
          · exact hrest.sig q h1 x hx
      · have ihr := ih hrest hfrest
        refine ⟨?_, ?_, ?_⟩
        · intro q hq
          simp only [addToGroup, if_neg hk] at hq
          rcases List.mem_cons.mp hq with h1 | h1
          · subst h1
            exact hacc.nonempty (k, g) (List.mem_cons_self _ _)
          · exact ihr.nonempty q h1
        · simp only [addToGroup, if_neg hk]
          refine List.pairwise_cons.mpr ⟨?_, ihr.disj⟩
          intro q hq
          have hqU : q.2 ⊆ groupsUnion (addToGroup rest sig s) := by
            intro x hx
            exact mem_groupsUnion.mpr ⟨q, hq, hx⟩
          rw [addToGroup_union] at hqU
          refine Finset.disjoint_left.mpr ?_
          intro x hxg hxq
          rcases Finset.mem_insert.mp (hqU hxq) with rfl | hxU
          · exact hfg hxg
          · rcases mem_groupsUnion.mp hxU with ⟨r, hr, hxr⟩
            have hd := (List.pairwise_cons.mp hacc.disj).1 r hr
            exact (Finset.disjoint_left.mp hd) hxg hxr
        · intro q hq x hx
          simp only [addToGroup, if_neg hk] at hq
          rcases List.mem_cons.mp hq with h1 | h1
          · subst h1
            exact hacc.sig (k, g) (List.mem_cons_self _ _) x hx
          · exact ihr.sig q h1 x hx

end Automata

namespace Automata

theorem except_bind_ok {ε α β : Type} (x : α) (f : α → Except ε β) :
    (Except.ok x >>= f) = f x := rfl

theorem list_join_cons {α : Type} (l : List α) (L : List (List α)) :
    (l :: L).join = l ++ L.join := rfl

theorem partsUnion_append (a b : List (Finset String)) :
    partsUnion (a ++ b) = partsUnion a ∪ partsUnion b := by
  induction a with
  | nil => simp [partsUnion]
  | cons g rest ih =>
      simp only [List.cons_append, partsUnion, List.foldr_cons] at ih ⊢
      rw [show List.foldr (· ∪ ·) ∅ (rest ++ b) = partsUnion (rest ++ b) from rfl,
        show List.foldr (· ∪ ·) ∅ rest = partsUnion rest from rfl] at *
      rw [ih, Finset.union_assoc]

theorem partsUnion_map_snd (pairs : List (List Int × Finset String)) :
    partsUnion (pairs.map Prod.snd) = groupsUnion pairs := by
  induction pairs with
  | nil => rfl
  | cons p rest ih =>
      simp only [List.map_cons, partsUnion, groupsUnion, List.foldr_cons]
      exact congrArg (p.2 ∪ ·) ih

theorem splitGroup_fold_spec (d : DFAa) (parts : List (Finset String)) :
    ∀ (l : List String) (acc : List (List Int × Finset String)),
      (∀ s ∈ l, ∃ k, signature d parts s = .ok k) →
      AccOK d parts acc →
      (∀ s ∈ l, s ∉ groupsUnion acc) →
      l.Nodup →
      ∃ res, (l.foldlM (fun acc s => do
          let sig ← signature d parts s
          pure (addToGroup acc sig s)) acc) = .ok res ∧
        AccOK d parts res ∧ groupsUnion res = groupsUnion acc ∪ l.toFinset := by
  intro l
  induction l with
  | nil =>
      intro acc _ hacc _ _
      exact ⟨acc, rfl, hacc, by simp⟩
  | cons s l ih =>
      intro acc hsig hacc hfresh hnd
      obtain ⟨k, hk⟩ := hsig s (List.mem_cons_self s l)
      have hstep : ((s :: l).foldlM (fun acc s => do
          let sig ← signature d parts s
          pure (addToGroup acc sig s)) acc) =
          (l.foldlM (fun acc s => do
            let sig ← signature d parts s
            pure (addToGroup acc sig s)) (addToGroup acc k s)) := by
        rw [List.foldlM_cons]
        rw [show (do
            let sig ← signature d parts s
            pure (addToGroup acc sig s) : Except String _) =
          (Except.ok (addToGroup acc k s)) by rw [hk]; rfl]
        rfl
      have hacc' : AccOK d parts (addToGroup acc k s) :=
        addToGroup_ok hacc (hfresh s (List.mem_cons_self s l)) hk
      have hfresh' : ∀ t ∈ l, t ∉ groupsUnion (addToGroup acc k s) := by
        intro t ht hc
        rw [addToGroup_union] at hc
        rcases Finset.mem_insert.mp hc with rfl | hc2
        · exact (List.nodup_cons.mp hnd).1 ht
        · exact hfresh t (List.mem_cons_of_mem s ht) hc2
      obtain ⟨res, hres, hrok, hrU⟩ := ih (addToGroup acc k s)
        (fun t ht => hsig t (List.mem_cons_of_mem s ht)) hacc' hfresh'
        (List.nodup_cons.mp hnd).2
      refine ⟨res, by rw [hstep]; exact hres, hrok, ?_⟩
      rw [hrU, addToGroup_union]
      ext x
      simp only [Finset.mem_union, Finset.mem_insert, List.toFinset_cons,
        List.mem_toFinset, List.mem_cons]
      tauto

theorem splitGroup_spec {d : DFAa} {parts : List (Finset String)}
    {g : Finset String}
    (hsig : ∀ s ∈ g, ∃ k, signature d parts s = .ok k) :
    ∃ pairs, splitGroup d parts g = .ok (pairs.map Prod.snd) ∧
      AccOK d parts pairs ∧ groupsUnion pairs = g := by
  obtain ⟨res, hres, hrok, hrU⟩ := splitGroup_fold_spec d parts (sortedFin g) []
    (fun s hs => hsig s (sortedFin_mem.mp hs))
    ⟨fun p hp => absurd hp (List.not_mem_nil p), List.Pairwise.nil,
      fun p hp => absurd hp (List.not_mem_nil p)⟩
    (fun s _ hc => by simp [groupsUnion] at hc)
    (sortedFin_nodup g)
  refine ⟨res, ?_, hrok, ?_⟩
  · unfold splitGroup
    rw [show ((sortedFin g).foldlM (fun acc s => do
        let sig ← signature d parts s
        pure (addToGroup acc sig s))
        ([] : List (List Int × Finset String))) = Except.ok res from hres]
    rfl
  · rw [hrU]
    ext x
    simp only [groupsUnion, List.foldr_nil, Finset.empty_union,
      List.mem_toFinset, sortedFin_mem]

/-- One group's refinement: kept whole when of size at most one, split by
signature otherwise. -/
def groupRefine (d : DFAa) (parts : List (Finset String)) (g : Finset String) :
    Except String (List (Finset String)) :=
  if g.card ≤ 1 then .ok [g] else splitGroup d parts g

/-- What one refined group yields: nonempty pairwise-disjoint subgroups
covering the group, each signature-homogeneous. -/
structure GroupOut (d : DFAa) (parts : List (Finset String))
    (g : Finset String) (out : List (Finset String)) : Prop where
  nonempty : ∀ h ∈ out, h.Nonempty
  disj : List.Pairwise (fun h1 h2 => Disjoint h1 h2) out
  union : partsUnion out = g
  sig : ∀ h ∈ out, ∃ k : List Int, ∀ x ∈ h, signature d parts x = .ok k

theorem groupRefine_spec {d : DFAa} {parts : List (Finset String)}
    {g : Finset String} (hne : g.Nonempty)
    (hsig : ∀ s ∈ g, ∃ k, signature d parts s = .ok k) :
    ∃ out, groupRefine d parts g = .ok out ∧ GroupOut d parts g out := by
  unfold groupRefine
  by_cases hc : g.card ≤ 1
  · rw [if_pos hc]
    have hcard : g.card = 1 := le_antisymm hc (Finset.card_pos.mpr hne)
    obtain ⟨z, hz⟩ := Finset.card_eq_one.mp hcard
    refine ⟨[g], rfl, ?_, ?_, ?_, ?_⟩
    · intro h hh
      rw [List.mem_singleton] at hh
      rw [hh]
      exact hne
    · simp
    · simp [partsUnion]
    · intro h hh
      rw [List.mem_singleton] at hh
      rw [hh]
      obtain ⟨k, hk⟩ := hsig z (by rw [hz]; exact Finset.mem_singleton_self z)
      refine ⟨k, ?_⟩
      intro y hy
      rw [hz] at hy
      rw [Finset.mem_singleton.mp hy]
      exact hk
  · rw [if_neg hc]
    obtain ⟨pairs, hres, hok, hU⟩ := splitGroup_spec hsig
    refine ⟨pairs.map Prod.snd, hres, ?_, ?_, ?_, ?_⟩
    · intro h hh
      rcases List.mem_map.mp hh with ⟨p, hp, hpe⟩
      subst hpe
      exact hok.nonempty p hp
    · refine List.Pairwise.map Prod.snd ?_ hok.disj
      intro p q hpq
      exact hpq
    · rw [partsUnion_map_snd, hU]
    · intro h hh
      rcases List.mem_map.mp hh with ⟨p, hp, hpe⟩
      subst hpe
      exact ⟨p.1, fun x hx => hok.sig p hp x hx⟩

end Automata

namespace Automata

/-- Invariant of the minimizer's partitions: nonempty pairwise-disjoint
groups covering the state set, each entirely final or entirely
non-final. -/
structure PartOK (d : DFAa) (parts : List (Finset String)) : Prop where
  nonempty : ∀ g ∈ parts, g.Nonempty
  disj : List.Pairwise (fun g h => Disjoint g h) parts
  cover : partsUnion parts = d.states
  sep : ∀ g ∈ parts, g ⊆ d.final_states ∨ g ⊆ d.states \ d.final_states

theorem signature_ok {d : DFAa} {parts : List (Finset String)}
    (h3 : ∀ q ∈ d.states, (d.transitions.lookup q).isSome = true)
    {s : String} (hs : s ∈ d.states) :
    ∃ k, signature d parts s = .ok k := by
  obtain ⟨row, hrow⟩ := Option.isSome_iff_exists.mp (h3 s hs)
  refine ⟨(symsListD d).map (fun a =>
    match row.lookup a with
    | none => (-1 : Int)
    | some t => partIdx parts t), ?_⟩
  unfold signature transRow
  rw [hrow]
  rfl

theorem refineRound_fold_spec (d : DFAa) (parts : List (Finset String)) :
    ∀ (l : List (Finset String)) (acc : List (Finset String)),
      (∀ g ∈ l, g.Nonempty) →
      (∀ g ∈ l, ∀ s ∈ g, ∃ k, signature d parts s = .ok k) →
      ∃ outs : List (List (Finset String)),
        (l.foldlM (fun acc g =>
          if g.card ≤ 1 then pure (acc ++ [g])
          else do
            let sgs ← splitGroup d parts g
            pure (acc ++ sgs)) acc) = .ok (acc ++ outs.join) ∧
        List.Forall₂ (GroupOut d parts) l outs := by
  intro l
  induction l with
  | nil =>
      intro acc _ _
      refine ⟨[], ?_, List.Forall₂.nil⟩
      rw [List.foldlM_nil]
      show Except.ok acc = Except.ok (acc ++ ([] : List (List (Finset String))).join)
      simp
  | cons g l ih =>
      intro acc hne hsig
      obtain ⟨out, hgr, hout⟩ := groupRefine_spec
        (hne g (List.mem_cons_self g l)) (hsig g (List.mem_cons_self g l))
      have hstep : ((g :: l).foldlM (fun acc g =>
          if g.card ≤ 1 then pure (acc ++ [g])
          else do
            let sgs ← splitGroup d parts g
            pure (acc ++ sgs)) acc) =
          (l.foldlM (fun acc g =>
            if g.card ≤ 1 then pure (acc ++ [g])
            else do
              let sgs ← splitGroup d parts g
              pure (acc ++ sgs)) (acc ++ out)) := by
        rw [List.foldlM_cons]
        unfold groupRefine at hgr
        by_cases hc : g.card ≤ 1
        · rw [if_pos hc] at hgr ⊢
          have : out = [g] := by
            have := hgr
            simp only [Except.ok.injEq] at this
            exact this.symm
          rw [this]
          rfl
        · rw [if_neg hc] at hgr ⊢
          rw [show (splitGroup d parts g) = Except.ok out from hgr]
          rfl
      obtain ⟨outs, hrest, hrel⟩ := ih (acc ++ out)
        (fun h hh => hne h (List.mem_cons_of_mem g hh))
        (fun h hh => hsig h (List.mem_cons_of_mem g hh))
      refine ⟨out :: outs, ?_, List.Forall₂.cons hout hrel⟩
      rw [hstep, hrest]
      simp

theorem refineRound_spec {d : DFAa} {parts : List (Finset String)}
    (hne : ∀ g ∈ parts, g.Nonempty)
    (hsig : ∀ g ∈ parts, ∀ s ∈ g, ∃ k, signature d parts s = .ok k) :
    ∃ outs : List (List (Finset String)),
      refineRound d parts = .ok outs.join ∧
      List.Forall₂ (GroupOut d parts) parts outs := by
  obtain ⟨outs, hres, hrel⟩ := refineRound_fold_spec d parts parts [] hne hsig
  refine ⟨outs, ?_, hrel⟩
  unfold refineRound
  rw [hres]
  simp

theorem forall₂_groupout_props {d : DFAa} {parts : List (Finset String)} :
    ∀ {l : List (Finset String)} {outs : List (List (Finset String))},
      List.Forall₂ (GroupOut d parts) l outs →
      (∀ g ∈ l, g.Nonempty) →
      partsUnion outs.join = partsUnion l ∧
      outs.join.length ≥ l.length ∧
      (outs.join.length = l.length → outs.join = l) ∧
      (∀ h ∈ outs.join, ∃ g ∈ l, h ⊆ g ∧
        ∃ k : List Int, ∀ x ∈ h, signature d parts x = .ok k) ∧
      (∀ h ∈ outs.join, h.Nonempty) := by
  intro l outs hrel
  induction hrel with
  | nil =>
      intro _
      exact ⟨rfl, le_rfl, fun _ => rfl, fun h hh => absurd hh (List.not_mem_nil h),
        fun h hh => absurd hh (List.not_mem_nil h)⟩
  | @cons g out l' outs' hout hrel' ih =>
      intro hne
      obtain ⟨ihU, ihlen, iheq, ihmem, ihne2⟩ :=
        ih (fun x hx => hne x (List.mem_cons_of_mem g hx))
      have houtlen : 1 ≤ out.length := by
        rcases out with _ | ⟨h, t⟩
        · exfalso
          have : partsUnion ([] : List (Finset String)) = g := hout.union
          simp [partsUnion] at this
          obtain ⟨x, hx⟩ := hne g (List.mem_cons_self g l')
          rw [← this] at hx
          simp at hx
        · simp
      refine ⟨?_, ?_, ?_, ?_, ?_⟩
      · rw [list_join_cons, partsUnion_append, hout.union, ihU]
        rfl
      · rw [list_join_cons]
        simp only [List.length_append, List.length_cons]
        omega
      · intro hlen
        rw [list_join_cons] at hlen
        simp only [List.length_append, List.length_cons] at hlen
        have h1 : out.length = 1 := by omega
        have h2 : outs'.join.length = l'.length := by omega
        obtain ⟨h, hh⟩ := List.length_eq_one.mp h1
        have hg : h = g := by
          have := hout.union
          rw [hh] at this
          simpa [partsUnion] using this
        rw [list_join_cons, hh, hg, iheq h2]
        rfl
      · intro h hh
        rw [list_join_cons] at hh
        rcases List.mem_append.mp hh with h1 | h1
        · refine ⟨g, List.mem_cons_self g l', ?_, ?_⟩
          · intro x hx
            rw [← hout.union]
            exact mem_partsUnion.mpr ⟨h, h1, hx⟩
          · exact hout.sig h h1
        · obtain ⟨g', hg', hsub, hsg⟩ := ihmem h h1
          exact ⟨g', List.mem_cons_of_mem g hg', hsub, hsg⟩
      · intro h hh
        rw [list_join_cons] at hh
        rcases List.mem_append.mp hh with h1 | h1
        · exact hout.nonempty h h1
        · exact ihne2 h h1

theorem forall₂_groupout_pairwise {d : DFAa} {parts : List (Finset String)} :
    ∀ {l : List (Finset String)} {outs : List (List (Finset String))},
      List.Forall₂ (GroupOut d parts) l outs →
      List.Pairwise (fun g h => Disjoint g h) l →
      List.Pairwise (fun h1 h2 => Disjoint h1 h2) outs.join := by
  intro l outs hrel
  induction hrel with
  | nil => intro _; simp
  | @cons g out l' outs' hout hrel' ih =>
      intro hdisj
      have hd := List.pairwise_cons.mp hdisj
      rw [list_join_cons, List.pairwise_append]
      refine ⟨hout.disj, ih hd.2, ?_⟩
      intro h1 hh1 h2 hh2
      have hsub1 : h1 ⊆ g := by
        intro x hx
        rw [← hout.union]
        exact mem_partsUnion.mpr ⟨h1, hh1, hx⟩
      -- h2 lies inside some later group g'
      have hsub2 : ∃ g' ∈ l', h2 ⊆ g' := by
        clear ih hdisj hd hsub1 hh1
        induction hrel' with
        | nil => simp at hh2
        | @cons g2 out2 l2 outs2 hout2 hrel2 ih2 =>
            rw [list_join_cons] at hh2
            rcases List.mem_append.mp hh2 with h3 | h3
            · refine ⟨g2, List.mem_cons_self g2 l2, ?_⟩
              intro x hx
              rw [← hout2.union]
              exact mem_partsUnion.mpr ⟨h2, h3, hx⟩
            · obtain ⟨g', hg', hs⟩ := ih2 h3
              exact ⟨g', List.mem_cons_of_mem g2 hg', hs⟩
      obtain ⟨g', hg', hsub2'⟩ := hsub2
      have hgg : Disjoint g g' := hd.1 g' hg'
      exact Finset.disjoint_left.mpr
        (fun x hx1 hx2 => Finset.disjoint_left.mp hgg (hsub1 hx1) (hsub2' hx2))

theorem round_spec {d : DFAa} {parts : List (Finset String)}
    (hp : PartOK d parts)
    (h3 : ∀ q ∈ d.states, (d.transitions.lookup q).isSome = true) :
    ∃ router, refineRound d parts = .ok router ∧ PartOK d router ∧
      router.length ≥ parts.length ∧
      (router.length = parts.length → router = parts) ∧
      (router = parts →
        ∀ g ∈ parts, ∃ k : List Int, ∀ x ∈ g, signature d parts x = .ok k) := by
  have hmemstates : ∀ g ∈ parts, ∀ s ∈ g, s ∈ d.states := by
    intro g hg s hs
    rw [← hp.cover]
    exact mem_partsUnion.mpr ⟨g, hg, hs⟩
  obtain ⟨outs, hres, hrel⟩ := refineRound_spec hp.nonempty
    (fun g hg s hs => signature_ok h3 (hmemstates g hg s hs))
  obtain ⟨hU, hlen, heq, hmem, hne2⟩ := forall₂_groupout_props hrel hp.nonempty
  refine ⟨outs.join, hres, ⟨hne2, forall₂_groupout_pairwise hrel hp.disj, ?_, ?_⟩,
    hlen, heq, ?_⟩
  · rw [hU, hp.cover]
  · intro h hh
    obtain ⟨g, hg, hsub, _⟩ := hmem h hh
    rcases hp.sep g hg with h1 | h1
    · exact Or.inl (hsub.trans h1)
    · exact Or.inr (hsub.trans h1)
  · intro hfix g hg
    have hgj : g ∈ outs.join := by rw [hfix]; exact hg
    obtain ⟨g', _, _, k, hk⟩ := hmem g hgj
    exact ⟨k, hk⟩

end Automata

namespace Automata

theorem sortParts_perm (l : List (Finset String)) : (sortParts l).Perm l :=
  List.perm_insertionSort pLe l

theorem partsUnion_perm {a b : List (Finset String)} (h : a.Perm b) :
    partsUnion a = partsUnion b := by
  ext x
  rw [mem_partsUnion, mem_partsUnion]
  constructor
  · rintro ⟨g, hg, hx⟩
    exact ⟨g, h.mem_iff.mp hg, hx⟩
  · rintro ⟨g, hg, hx⟩
    exact ⟨g, h.mem_iff.mpr hg, hx⟩

theorem sortParts_partok {d : DFAa} {l : List (Finset String)}
    (hp : PartOK d l) : PartOK d (sortParts l) := by
  have hperm := sortParts_perm l
  refine ⟨?_, ?_, ?_, ?_⟩
  · intro g hg
    exact hp.nonempty g (hperm.mem_iff.mp hg)
  · exact (List.Perm.pairwise_iff (fun h => Disjoint.symm h) hperm).mpr hp.disj
  · rw [partsUnion_perm hperm, hp.cover]
  · intro g hg
    exact hp.sep g (hperm.mem_iff.mp hg)

theorem sortParts_length (l : List (Finset String)) :
    (sortParts l).length = l.length :=
  List.length_insertionSort pLe l

theorem sortParts_sorted (l : List (Finset String)) :
    List.Pairwise pLe (sortParts l) :=
  List.sorted_insertionSort pLe l

theorem sortParts_of_sorted {l : List (Finset String)}
    (h : List.Pairwise pLe l) : sortParts l = l :=
  List.Sorted.insertionSort_eq h

theorem disjoint_partsUnion {g : Finset String} {l : List (Finset String)}
    (h : ∀ h2 ∈ l, Disjoint g h2) : Disjoint g (partsUnion l) := by
  induction l with
  | nil => simp [partsUnion]
  | cons h2 rest ih =>
      rw [show partsUnion (h2 :: rest) = h2 ∪ partsUnion rest from rfl]
      rw [Finset.disjoint_union_right]
      exact ⟨h h2 (List.mem_cons_self _ _),
        ih (fun h3 h3m => h h3 (List.mem_cons_of_mem _ h3m))⟩

theorem length_le_card_partsUnion {l : List (Finset String)}
    (hne : ∀ g ∈ l, g.Nonempty)
    (hdisj : List.Pairwise (fun g h => Disjoint g h) l) :
    l.length ≤ (partsUnion l).card := by
  induction l with
  | nil => simp
  | cons g rest ih =>
      rw [show partsUnion (g :: rest) = g ∪ partsUnion rest from rfl]
      have hd := List.pairwise_cons.mp hdisj
      rw [Finset.card_union_of_disjoint (disjoint_partsUnion hd.1)]
      have h1 : 1 ≤ g.card :=
        Finset.card_pos.mpr (hne g (List.mem_cons_self _ _))
      have h2 := ih (fun h hm => hne h (List.mem_cons_of_mem _ hm)) hd.2
      simp only [List.length_cons]
      omega

theorem partok_length_le {d : DFAa} {parts : List (Finset String)}
    (hp : PartOK d parts) : parts.length ≤ d.states.card := by
  have := length_le_card_partsUnion hp.nonempty hp.disj
  rwa [hp.cover] at this

/-- The last element of a list equals the last element of its front. -/
def lastTwoEq (l : List (List (Finset String))) : Prop :=
  l.getLast? = l.dropLast.getLast?

theorem minimLoop_sorted_spec {d : DFAa}
    (h3 : ∀ q ∈ d.states, (d.transitions.lookup q).isSome = true) :
    ∀ (fuel : Nat) (parts : List (Finset String)), PartOK d parts →
      List.Pairwise pLe parts →
      d.states.card + 1 ≤ fuel + parts.length →
      ∃ rsteps fin, minimLoop d fuel parts = .ok (rsteps, fin) ∧
        PartOK d fin ∧ refineRound d fin = .ok fin ∧
        rsteps.getLast? = some fin ∧
        (∀ p ∈ rsteps, List.Pairwise pLe p) ∧
        lastTwoEq (parts :: rsteps) ∧
        rsteps ≠ [] := by
  intro fuel
  induction fuel with
  | zero =>
      intro parts hp _ hfuel
      exfalso
      have := partok_length_le hp
      omega
  | succ fuel ih =>
      intro parts hp hsorted hfuel
      obtain ⟨router, hres, hpok, hlen, heqcase, _⟩ := round_spec hp h3
      have hloop : minimLoop d (fuel + 1) parts =
          (if sortParts router = parts then
            pure ([sortParts router], sortParts router)
          else do
            let r ← minimLoop d fuel (sortParts router)
            pure (sortParts router :: r.1, r.2)) := by
        simp only [minimLoop]
        rw [hres]
        rfl
      by_cases hfix : sortParts router = parts
      · have hrr : router = parts := by
          apply heqcase
          have := congrArg List.length hfix
          rw [sortParts_length] at this
          exact this
        rw [hloop, if_pos hfix, hfix]
        refine ⟨[parts], parts, rfl, hp, ?_, rfl, ?_, ?_, by simp⟩
        · rw [hrr] at hres
          exact hres
        · intro p hpm
          rw [List.mem_singleton] at hpm
          subst hpm
          exact hsorted
        · unfold lastTwoEq
          simp
      · have hgrow : parts.length + 1 ≤ router.length := by
          rcases Nat.lt_or_ge parts.length router.length with h | h
          · omega
          · exfalso
            have hle : router.length = parts.length := by omega
            have := heqcase hle
            subst this
            exact hfix (sortParts_of_sorted hsorted)
        obtain ⟨r1, fin, hrec, hfinok, hfinfix, hlast, hall, hlt, hne⟩ :=
          ih (sortParts router) (sortParts_partok hpok)
            (sortParts_sorted router) (by
              rw [sortParts_length]
              omega)
        obtain ⟨b, r2, rfl⟩ := List.exists_cons_of_ne_nil hne
        rw [hloop, if_neg hfix, hrec]
        refine ⟨sortParts router :: b :: r2, fin, rfl, hfinok, hfinfix, ?_, ?_, ?_, by simp⟩
        · rw [List.getLast?_cons_cons]
          exact hlast
        · intro p hpm
          rcases List.mem_cons.mp hpm with h | h
          · subst h
            exact sortParts_sorted router
          · exact hall p h
        · simp only [lastTwoEq, List.dropLast_cons₂, List.getLast?_cons_cons] at hlt ⊢
          exact hlt
end Automata

namespace Automata

theorem mem_of_getLast?_eq {α : Type} {l : List α} {x : α}
    (h : l.getLast? = some x) : x ∈ l := by
  obtain ⟨hne, hx⟩ := List.mem_getLast?_eq_getLast (Option.mem_def.mpr h)
  rw [hx]
  exact List.getLast_mem hne

theorem minimLoop_spec {d : DFAa}
    (h3 : ∀ q ∈ d.states, (d.transitions.lookup q).isSome = true)
    {parts : List (Finset String)} (hp : PartOK d parts)
    {fuel : Nat} (hfuel : d.states.card + 2 ≤ fuel + parts.length) :
    ∃ rsteps fin, minimLoop d fuel parts = .ok (rsteps, fin) ∧
      PartOK d fin ∧ refineRound d fin = .ok fin ∧ sortParts fin = fin ∧
      rsteps.getLast? = some fin ∧
      (∀ p ∈ rsteps, List.Pairwise pLe p) ∧
      lastTwoEq (parts :: rsteps) ∧ rsteps ≠ [] := by
  cases fuel with
  | zero =>
      exfalso
      have := partok_length_le hp
      omega
  | succ fuel =>
      obtain ⟨router, hres, hpok, hlen, heqcase, _⟩ := round_spec hp h3
      have hloop : minimLoop d (fuel + 1) parts =
          (if sortParts router = parts then
            pure ([sortParts router], sortParts router)
          else do
            let r ← minimLoop d fuel (sortParts router)
            pure (sortParts router :: r.1, r.2)) := by
        simp only [minimLoop]
        rw [hres]
        rfl
      by_cases hfix : sortParts router = parts
      · have hrr : router = parts := by
          apply heqcase
          have := congrArg List.length hfix
          rw [sortParts_length] at this
          exact this
        have hpsorted : List.Pairwise pLe parts := by
          rw [← hfix]
          exact sortParts_sorted router
        rw [hloop, if_pos hfix, hfix]
        refine ⟨[parts], parts, rfl, hp, ?_, sortParts_of_sorted hpsorted,
          rfl, ?_, ?_, by simp⟩
        · rw [hrr] at hres
          exact hres
        · intro p hpm
          rw [List.mem_singleton] at hpm
          subst hpm
          exact hpsorted
        · unfold lastTwoEq
          simp
      · obtain ⟨r1, fin, hrec, hfinok, hfinfix, hlast, hall, hlt, hne⟩ :=
          minimLoop_sorted_spec h3 fuel (sortParts router)
            (sortParts_partok hpok) (sortParts_sorted router) (by
              rw [sortParts_length]
              omega)
        have hfinsorted : sortParts fin = fin :=
          sortParts_of_sorted (hall fin (mem_of_getLast?_eq hlast))
        obtain ⟨b, r2, rfl⟩ := List.exists_cons_of_ne_nil hne
        rw [hloop, if_neg hfix, hrec]
        refine ⟨sortParts router :: b :: r2, fin, rfl, hfinok, hfinfix,
          hfinsorted, ?_, ?_, ?_, by simp⟩
        · rw [List.getLast?_cons_cons]
          exact hlast
        · intro p hpm
          rcases List.mem_cons.mp hpm with h | h
          · subst h
            exact sortParts_sorted router
          · exact hall p h
        · simp only [lastTwoEq, List.dropLast_cons₂, List.getLast?_cons_cons] at hlt ⊢
          exact hlt

theorem initParts_partok {d : DFAa} (hfs : d.final_states ⊆ d.states) :
    PartOK d (initParts d) := by
  simp only [initParts]
  by_cases hnf : d.states \ d.final_states ≠ (∅ : Finset String) <;>
    by_cases hf : d.final_states ≠ (∅ : Finset String)
  · rw [if_pos hnf, if_pos hf]
    simp only [List.singleton_append]
    refine ⟨?_, ?_, ?_, ?_⟩
    · intro g hg
      rcases List.mem_cons.mp hg with h | h
      · subst h
        exact Finset.nonempty_iff_ne_empty.mpr hnf
      · rw [List.mem_singleton] at h
        subst h
        exact Finset.nonempty_iff_ne_empty.mpr hf
    · refine List.pairwise_cons.mpr ⟨?_, List.pairwise_singleton _ _⟩
      intro g hg
      rw [List.mem_singleton] at hg
      subst hg
      exact Finset.sdiff_disjoint
    · show (d.states \ d.final_states) ∪ (d.final_states ∪ ∅) = d.states
      rw [Finset.union_empty, Finset.sdiff_union_of_subset hfs]
    · intro g hg
      rcases List.mem_cons.mp hg with h | h
      · subst h
        exact Or.inr (le_refl _)
      · rw [List.mem_singleton] at h
        subst h
        exact Or.inl (le_refl _)
  · rw [if_pos hnf, if_neg hf, List.append_nil]
    refine ⟨?_, List.pairwise_singleton _ _, ?_, ?_⟩
    · intro g hg
      rw [List.mem_singleton] at hg
      subst hg
      exact Finset.nonempty_iff_ne_empty.mpr hnf
    · show (d.states \ d.final_states) ∪ ∅ = d.states
      rw [Finset.union_empty, not_not.mp hf, Finset.sdiff_empty]
    · intro g hg
      rw [List.mem_singleton] at hg
      subst hg
      exact Or.inr (le_refl _)
  · rw [if_neg hnf, if_pos hf, List.nil_append]
    refine ⟨?_, List.pairwise_singleton _ _, ?_, ?_⟩
    · intro g hg
      rw [List.mem_singleton] at hg
      subst hg
      exact Finset.nonempty_iff_ne_empty.mpr hf
    · show d.final_states ∪ ∅ = d.states
      rw [Finset.union_empty]
      apply Finset.Subset.antisymm hfs
      intro x hx
      by_contra hxf
      have hmem : x ∈ d.states \ d.final_states := Finset.mem_sdiff.mpr ⟨hx, hxf⟩
      rw [not_not.mp hnf] at hmem
      exact absurd hmem (Finset.not_mem_empty x)
    · intro g hg
      rw [List.mem_singleton] at hg
      subst hg
      exact Or.inl (le_refl _)
  · rw [if_neg hnf, if_neg hf, List.nil_append]
    refine ⟨by simp, by simp, ?_, by simp⟩
    show (∅ : Finset String) = d.states
    have hf0 := not_not.mp hf
    have hnf0 := not_not.mp hnf
    rw [hf0, Finset.sdiff_empty] at hnf0
    rw [hnf0]

theorem initParts_ne_nil {d : DFAa} (hne : d.states.Nonempty) :
    initParts d ≠ [] := by
  simp only [initParts]
  intro h
  by_cases hnf : d.states \ d.final_states ≠ (∅ : Finset String) <;>
    by_cases hf : d.final_states ≠ (∅ : Finset String)
  · rw [if_pos hnf, if_pos hf] at h
    exact absurd h (by simp)
  · rw [if_pos hnf, if_neg hf, List.append_nil] at h
    exact absurd h (by simp)
  · rw [if_neg hnf, if_pos hf, List.nil_append] at h
    exact absurd h (by simp)
  · have hf0 := not_not.mp hf
    have hnf0 := not_not.mp hnf
    rw [hf0, Finset.sdiff_empty] at hnf0
    rw [hnf0] at hne
    exact Finset.not_nonempty_empty hne

end Automata

namespace Automata

theorem mapM_loop_ok {α β : Type} (f : α → Except String β) (g : α → β) :
    ∀ (l : List α) (acc : List β), (∀ x ∈ l, f x = .ok (g x)) →
      List.mapM.loop f l acc = .ok (acc.reverse ++ l.map g) := by
  intro l
  induction l with
  | nil =>
      intro acc _
      show Except.ok acc.reverse = .ok (acc.reverse ++ List.map g [])
      simp
  | cons x rest ih =>
      intro acc h
      have hx := h x (List.mem_cons_self _ _)
      simp only [List.mapM.loop, hx]
      rw [show ((Except.ok (g x) : Except String β) >>= fun b =>
        List.mapM.loop f rest (b :: acc)) = List.mapM.loop f rest (g x :: acc)
        from rfl]
      rw [ih (g x :: acc) (fun y hy => h y (List.mem_cons_of_mem _ hy))]
      simp

theorem mapM_ok {α β : Type} (f : α → Except String β) (g : α → β)
    (l : List α) (h : ∀ x ∈ l, f x = .ok (g x)) :
    l.mapM f = .ok (l.map g) := by
  rw [show l.mapM f = List.mapM.loop f l [] from rfl]
  rw [mapM_loop_ok f g l [] h]
  simp

theorem findIdx?_isSome_of_mem {α : Type} {p : α → Bool} {l : List α} {x : α}
    (hx : x ∈ l) (hp : p x = true) : ∃ i, l.findIdx? p = some i := by
  cases h : l.findIdx? p with
  | none =>
      rw [List.findIdx?_eq_none_iff] at h
      rw [h x hx] at hp
      exact absurd hp (by simp)
  | some i => exact ⟨i, rfl⟩

theorem findIdx?_get_aux {α : Type} {p : α → Bool} {l : List α} {i : Nat}
    (h : l.findIdx? p = some i) :
    ∃ x, l.get? i = some x ∧ p x = true ∧
      ∀ j, j < i → ∀ y, l.get? j = some y → p y = false := by
  rw [List.findIdx?_eq_some_iff_getElem] at h
  obtain ⟨hlt, hpi, hj⟩ := h
  refine ⟨l.get ⟨i, hlt⟩, ?_, hpi, ?_⟩
  · rw [List.get?_eq_getElem?]
    exact List.getElem?_eq_some_iff.mpr ⟨hlt, rfl⟩
  · intro j hji y hy
    rw [List.get?_eq_getElem?] at hy
    obtain ⟨hjl, hyv⟩ := List.getElem?_eq_some_iff.mp hy
    have := hj j hji
    rw [Bool.not_eq_true] at this
    rw [← hyv]
    exact this

theorem find?_of_findIdx? {α : Type} {p : α → Bool} :
    ∀ {l : List α} {i : Nat} {x : α}, l.findIdx? p = some i →
      l.get? i = some x → l.find? p = some x := by
  intro l
  induction l with
  | nil => intro i x h _; simp at h
  | cons a rest ih =>
      intro i x h hg
      rw [List.findIdx?_cons] at h
      cases ha : p a with
      | true =>
          rw [ha, if_pos rfl, Option.some_inj] at h
          subst h
          simp only [List.get?_cons_zero, Option.some_inj] at hg
          subst hg
          exact List.find?_cons_of_pos _ ha
      | false =>
          rw [ha] at h
          rw [if_neg (by simp)] at h
          rw [show List.findIdx? p rest (0 + 1) = List.findIdx? p rest 1 from rfl,
            List.findIdx?_succ] at h
          cases hr : rest.findIdx? p with
          | none =>
              rw [hr] at h
              simp at h
          | some k =>
              rw [hr] at h
              simp only [Option.map_some'] at h
              rw [Option.some_inj] at h
              subst h
              rw [List.get?_cons_succ] at hg
              rw [List.find?_cons_of_neg _ (by simp [ha])]
              exact ih hr hg

theorem partIdx_of_mem_partsUnion {parts : List (Finset String)} {t : String}
    (h : t ∈ partsUnion parts) :
    ∃ i : Nat, parts.findIdx? (fun p => decide (t ∈ p)) = some i ∧
      partIdx parts t = (i : Int) := by
  obtain ⟨g, hg, htg⟩ := mem_partsUnion.mp h
  obtain ⟨i, hi⟩ := @findIdx?_isSome_of_mem _ (fun p => decide (t ∈ p)) _ _ hg (decide_eq_true htg)
  refine ⟨i, hi, ?_⟩
  unfold partIdx
  rw [hi]

theorem groupOf_eq_of_partIdx_eq {parts : List (Finset String)} {t t' : String}
    (ht : t ∈ partsUnion parts) (ht' : t' ∈ partsUnion parts)
    (h : partIdx parts t = partIdx parts t') :
    parts.find? (fun p => decide (t ∈ p)) = parts.find? (fun p => decide (t' ∈ p)) := by
  obtain ⟨i, hi, hpi⟩ := partIdx_of_mem_partsUnion ht
  obtain ⟨i', hi', hpi'⟩ := partIdx_of_mem_partsUnion ht'
  have hii : i = i' := by
    rw [hpi, hpi'] at h
    exact_mod_cast h
  subst hii
  obtain ⟨x, hx, _, _⟩ := findIdx?_get_aux hi
  rw [find?_of_findIdx? hi hx, find?_of_findIdx? hi' hx]

theorem partok_nodup {d : DFAa} {parts : List (Finset String)}
    (hp : PartOK d parts) : parts.Nodup := by
  refine List.Pairwise.imp_of_mem ?_ hp.disj
  intro g h hg _ hd heq
  subst heq
  have hne := hp.nonempty g hg
  rw [disjoint_self] at hd
  rw [hd] at hne
  exact Finset.not_nonempty_empty (by rwa [Finset.bot_eq_empty] at hne)

theorem groupOf_unique {d : DFAa} {parts : List (Finset String)}
    (hp : PartOK d parts) {g : Finset String} {s : String}
    (hg : g ∈ parts) (hs : s ∈ g) :
    parts.find? (fun p => decide (s ∈ p)) = some g := by
  obtain ⟨i, hi⟩ := @findIdx?_isSome_of_mem _ (fun p => decide (s ∈ p)) _ _ hg (decide_eq_true hs)
  obtain ⟨x, hx, hpx, _⟩ := findIdx?_get_aux hi
  have hres := find?_of_findIdx? hi hx
  have hxmem : x ∈ parts := List.get?_mem hx
  have hpx' : s ∈ x := of_decide_eq_true hpx
  have hxg : x = g := by
    by_contra hne
    have hd : Disjoint x g :=
      List.Pairwise.forall (fun a b hab => Disjoint.symm hab) hp.disj hxmem hg hne
    exact (Finset.disjoint_left.mp hd) hpx' hs
  rw [hxg] at hres
  exact hres

end Automata



namespace Automata

theorem rep_mem {g : Finset String} (h : g.Nonempty) :
    (sortedFin g).headD "" ∈ g := by
  cases hg : sortedFin g with
  | nil =>
      exfalso
      have hl := sortedFin_length g
      rw [hg] at hl
      have : g = ∅ := Finset.card_eq_zero.mp hl.symm
      rw [this] at h
      exact Finset.not_nonempty_empty h
  | cons a t =>
      have ha : a ∈ sortedFin g := by
        rw [hg]
        exact List.mem_cons_self _ _
      rw [sortedFin_mem] at ha
      simpa [hg] using ha

theorem mem_rebuildOrdered {parts : List (Finset String)} {sp p : Finset String}
    (hsp : sp ∈ parts) (hp : p ∈ rebuildOrdered parts sp) : p ∈ parts := by
  rcases List.mem_cons.mp hp with h | h
  · subst h
    exact hsp
  · have := (sortParts_perm _).mem_iff.mp h
    exact (List.mem_filter.mp this).1

theorem rebuildOrdered_perm {parts : List (Finset String)} {sp : Finset String}
    (hnd : parts.Nodup) (hsp : sp ∈ parts) :
    (rebuildOrdered parts sp).Perm parts := by
  unfold rebuildOrdered
  have h1 : (sp :: sortParts (parts.filter (fun p => p ≠ sp))).Perm
      (sp :: parts.filter (fun p => p ≠ sp)) :=
    List.Perm.cons sp (sortParts_perm _)
  refine h1.trans ?_
  have h2 : parts.filter (fun p => p ≠ sp) = parts.erase sp := by
    rw [List.Nodup.erase_eq_filter hnd]
    apply List.filter_congr
    intro x _
    by_cases h : x = sp <;> simp [h, bne]
  rw [h2]
  exact (List.perm_cons_erase hsp).symm

theorem minimize_dfa_with_steps_eq {d : DFAa}
    {rsteps : List (List (Finset String))} {fin : List (Finset String)}
    {sp : Finset String}
    (hloop : minimLoop d (minimFuel d) (initParts d) = .ok (rsteps, fin))
    (hsp : fin.find? (fun p => decide (d.initial_state ∈ p)) = some sp)
    (hrows : ∀ p ∈ rebuildOrdered fin sp,
      transRow d ((sortedFin p).headD "") = .ok (repRow d p)) :
    minimize_dfa_with_steps d =
      .ok ⟨rebuildDFA d fin sp, initParts d :: rsteps, rebuildMapping fin sp⟩ := by
  simp only [minimize_dfa_with_steps]
  rw [hloop, except_bind_ok]
  rw [show List.find? (fun p => decide (d.initial_state ∈ p)) (rsteps, fin).2 = some sp
    from hsp]
  show ((rebuildOrdered fin sp).mapM (fun p => transRow d ((sortedFin p).headD "")) >>=
      fun _ => pure (MinimResult.mk (rebuildDFA d fin sp) (initParts d :: rsteps)
        (rebuildMapping fin sp))) =
    Except.ok (MinimResult.mk (rebuildDFA d fin sp) (initParts d :: rsteps)
      (rebuildMapping fin sp))
  rw [mapM_ok (fun p => transRow d ((sortedFin p).headD "")) (repRow d)
    (rebuildOrdered fin sp) hrows]
  rfl

theorem minimize_ok {d : DFAa} (hwf : wfDFA d) (_hne : d.states.Nonempty) :
    ∃ (rsteps : List (List (Finset String))) (fin : List (Finset String))
      (sp : Finset String),
      PartOK d fin ∧ refineRound d fin = .ok fin ∧ sortParts fin = fin ∧
      fin.find? (fun p => decide (d.initial_state ∈ p)) = some sp ∧
      sp ∈ fin ∧ d.initial_state ∈ sp ∧
      rsteps.getLast? = some fin ∧ (∀ p ∈ rsteps, List.Pairwise pLe p) ∧
      lastTwoEq (initParts d :: rsteps) ∧ rsteps ≠ [] ∧
      minimize_dfa_with_steps d =
        .ok ⟨rebuildDFA d fin sp, initParts d :: rsteps, rebuildMapping fin sp⟩ := by
  obtain ⟨hinit, hfs, h3, h4⟩ := hwf
  have hp0 : PartOK d (initParts d) := initParts_partok hfs
  obtain ⟨rsteps, fin, hloop, hfinok, hfix, hsorted, hlast, hall, hlt, hne2⟩ :=
    @minimLoop_spec d h3 (initParts d) hp0 (minimFuel d)
      (by show d.states.card + 2 ≤ d.states.card + 2 + (initParts d).length; omega)
  have hinU : d.initial_state ∈ partsUnion fin := by
    rw [hfinok.cover]
    exact hinit
  obtain ⟨sp, hspmem, hspin⟩ := mem_partsUnion.mp hinU
  have hsp : fin.find? (fun p => decide (d.initial_state ∈ p)) = some sp :=
    groupOf_unique hfinok hspmem hspin
  have hrows : ∀ p ∈ rebuildOrdered fin sp,
      transRow d ((sortedFin p).headD "") = .ok (repRow d p) := by
    intro p hp
    have hpfin : p ∈ fin := mem_rebuildOrdered hspmem hp
    have hpne : p.Nonempty := hfinok.nonempty p hpfin
    have hrep : (sortedFin p).headD "" ∈ d.states := by
      rw [← hfinok.cover]
      exact mem_partsUnion.mpr ⟨p, hpfin, rep_mem hpne⟩
    obtain ⟨row, hrow⟩ := Option.isSome_iff_exists.mp (h3 _ hrep)
    unfold transRow repRow
    rw [hrow]
    rfl
  exact ⟨rsteps, fin, sp, hfinok, hfix, hsorted, hsp, hspmem, hspin, hlast,
    hall, hlt, hne2, minimize_dfa_with_steps_eq hloop hsp hrows⟩

end Automata

namespace Automata

theorem enum_lookup_of_get? {l : List (Finset String)} (hnd : l.Nodup)
    {i : Nat} {p : Finset String} (h : l.get? i = some p) (f : Nat → String) :
    (l.enum.map (fun pr => (pr.2, f pr.1))).lookup p = some (f i) := by
  apply lookup_eq_of_mem_nodup
  · rw [List.map_map]
    have hc : (Prod.fst ∘ fun pr : Nat × Finset String => (pr.2, f pr.1)) =
        Prod.snd := rfl
    rw [hc, List.enum_map_snd]
    exact hnd
  · exact List.mem_map.mpr ⟨(i, p), List.mem_enum_iff_get?.mpr h, rfl⟩

theorem rebuildLabel_eq {parts : List (Finset String)} {sp : Finset String}
    {i : Nat} {p : Finset String}
    (hnd : (rebuildOrdered parts sp).Nodup)
    (h : (rebuildOrdered parts sp).get? i = some p) :
    rebuildLabel parts sp p = generate_label i := by
  unfold rebuildLabel rebuildMapping
  rw [enum_lookup_of_get? hnd h generate_label]
  rfl

theorem rebuildLabel_inj {parts : List (Finset String)} {sp : Finset String}
    (hnd : (rebuildOrdered parts sp).Nodup) {p q : Finset String}
    (hp : p ∈ rebuildOrdered parts sp) (hq : q ∈ rebuildOrdered parts sp)
    (h : rebuildLabel parts sp p = rebuildLabel parts sp q) : p = q := by
  obtain ⟨i, hi⟩ := List.get?_of_mem hp
  obtain ⟨j, hj⟩ := List.get?_of_mem hq
  rw [rebuildLabel_eq hnd hi, rebuildLabel_eq hnd hj] at h
  have := generate_label_inj h
  subst this
  rw [hi] at hj
  exact Option.some_inj.mp hj

theorem rebuildMapping_snd {parts : List (Finset String)} {sp : Finset String} :
    (rebuildMapping parts sp).map Prod.snd =
      (List.range (rebuildOrdered parts sp).length).map generate_label := by
  unfold rebuildMapping
  rw [List.map_map]
  have hc : (Prod.snd ∘ fun pr : Nat × Finset String => (pr.2, generate_label pr.1)) =
      (generate_label ∘ Prod.fst) := rfl
  rw [hc, ← List.map_map, List.enum_map_fst]

theorem rebuildDFA_card {d : DFAa} {parts : List (Finset String)}
    {sp : Finset String} :
    (rebuildDFA d parts sp).states.card = (rebuildOrdered parts sp).length := by
  show (((rebuildMapping parts sp).map Prod.snd).toFinset).card = _
  rw [rebuildMapping_snd]
  rw [List.toFinset_card_of_nodup]
  · rw [List.length_map, List.length_range]
  · exact List.Nodup.map (fun a b hab => generate_label_inj hab) (List.nodup_range _)

end Automata

namespace Automata

theorem rebuildOrdered_nodup {parts : List (Finset String)} {sp : Finset String}
    (hnd : parts.Nodup) (hsp : sp ∈ parts) :
    (rebuildOrdered parts sp).Nodup :=
  ((rebuildOrdered_perm hnd hsp).nodup_iff).mpr hnd

theorem rebuildTrans_lookup {d : DFAa} {parts : List (Finset String)}
    {sp : Finset String} (hnd : (rebuildOrdered parts sp).Nodup)
    {p : Finset String} (hp : p ∈ rebuildOrdered parts sp) :
    (rebuildTrans d parts sp).lookup (rebuildLabel parts sp p) =
      some (rebuildRow d parts sp (repRow d p)) := by
  apply lookup_eq_of_mem_nodup
  · unfold rebuildTrans
    rw [List.map_map]
    have hc : (Prod.fst ∘ fun p => (rebuildLabel parts sp p,
        rebuildRow d parts sp (repRow d p))) = rebuildLabel parts sp := rfl
    rw [hc]
    exact List.Nodup.map_on (fun x hx y hy hxy => rebuildLabel_inj hnd hx hy hxy) hnd
  · exact List.mem_map.mpr ⟨p, hp, rfl⟩

theorem rebuildDFA_final_iff {d : DFAa} {parts : List (Finset String)}
    {sp : Finset String} (hnd : (rebuildOrdered parts sp).Nodup)
    {p : Finset String} (hp : p ∈ rebuildOrdered parts sp) :
    (rebuildLabel parts sp p ∈ (rebuildDFA d parts sp).final_states) ↔
      p ∩ d.final_states ≠ ∅ := by
  show _ ∈ (((rebuildOrdered parts sp).filter
    (fun p => p ∩ d.final_states ≠ ∅)).map (rebuildLabel parts sp)).toFinset ↔ _
  rw [List.mem_toFinset, List.mem_map]
  constructor
  · rintro ⟨q, hqf, heq⟩
    obtain ⟨hqo, hqc⟩ := List.mem_filter.mp hqf
    have := rebuildLabel_inj hnd hqo hp heq
    subst this
    exact of_decide_eq_true hqc
  · intro hc
    exact ⟨p, List.mem_filter.mpr ⟨hp, decide_eq_true hc⟩, rfl⟩

theorem fixpoint_sig {d : DFAa} {parts : List (Finset String)}
    (hp : PartOK d parts)
    (h3 : ∀ q ∈ d.states, (d.transitions.lookup q).isSome = true)
    (hfix : refineRound d parts = .ok parts) :
    ∀ g ∈ parts, ∃ k : List Int, ∀ x ∈ g, signature d parts x = .ok k := by
  obtain ⟨router, hres, _, _, _, hsig⟩ := round_spec hp h3
  have hre : router = parts := by
    rw [hres] at hfix
    injection hfix
  exact hsig hre

theorem lookup_filterMap_keyed {β : Type} (F : String → Option β) :
    ∀ {l : List String}, l.Nodup → ∀ (a : String),
      ((l.filterMap (fun x => Option.map (fun v => (x, v)) (F x))).lookup a) =
        if a ∈ l then F a else none := by
  intro l
  induction l with
  | nil =>
      intro _ a
      simp
  | cons x t ih =>
      intro hnd a
      obtain ⟨hx, hnd'⟩ := List.nodup_cons.mp hnd
      rw [List.filterMap_cons]
      cases hFx : F x with
      | none =>
          rw [show Option.map (fun v => (x, v)) none = (none : Option (String × β))
            from rfl]
          rw [ih hnd' a]
          by_cases hax : a = x
          · subst hax
            rw [if_neg hx, if_pos (List.mem_cons_self _ _), hFx]
          · by_cases hat : a ∈ t
            · rw [if_pos hat, if_pos (List.mem_cons_of_mem _ hat)]
            · rw [if_neg hat, if_neg (by
                intro hm
                rcases List.mem_cons.mp hm with h | h
                · exact hax h
                · exact hat h)]
      | some v =>
          rw [show Option.map (fun v => (x, v)) (some v) = some (x, v) from rfl]
          by_cases hax : a = x
          · subst hax
            rw [if_pos (List.mem_cons_self _ _), hFx]
            simp [List.lookup]
          · rw [show ((x, v) :: t.filterMap
                (fun x => Option.map (fun v => (x, v)) (F x))).lookup a =
                (t.filterMap (fun x => Option.map (fun v => (x, v)) (F x))).lookup a
              from by
                simp only [List.lookup, beq_eq_false_iff_ne.mpr hax]]
            rw [ih hnd' a]
            by_cases hat : a ∈ t
            · rw [if_pos hat, if_pos (List.mem_cons_of_mem _ hat)]
            · rw [if_neg hat, if_neg (by
                intro hm
                rcases List.mem_cons.mp hm with h | h
                · exact hax h
                · exact hat h)]

/-- The option-valued entry of the rebuilt row at one symbol. -/
def rowValue (d : DFAa) (parts : List (Finset String)) (sp : Finset String)
    (row : List (String × String)) (a : String) : Option String :=
  match row.lookup a with
  | none => none
  | some t =>
      match parts.find? (fun g => decide (t ∈ g)) with
      | none => none
      | some tp => if tp ≠ ∅ then some (rebuildLabel parts sp tp) else none

theorem rebuildRow_eq (d : DFAa) (parts : List (Finset String))
    (sp : Finset String) (row : List (String × String)) :
    rebuildRow d parts sp row =
      (symsListD d).filterMap
        (fun a => Option.map (fun v => (a, v)) (rowValue d parts sp row a)) := by
  unfold rebuildRow
  have hF : (fun a =>
      match row.lookup a with
      | none => none
      | some t =>
          match parts.find? (fun g => decide (t ∈ g)) with
          | none => none
          | some tp => if tp ≠ ∅ then some (a, rebuildLabel parts sp tp) else none) =
      (fun a => Option.map (fun v => (a, v)) (rowValue d parts sp row a)) := by
    funext a
    unfold rowValue
    cases row.lookup a with
    | none => rfl
    | some t =>
        show (match parts.find? (fun g => decide (t ∈ g)) with
          | none => none
          | some tp => if tp ≠ ∅ then some (a, rebuildLabel parts sp tp) else none) =
          Option.map (fun v => (a, v))
            (match parts.find? (fun g => decide (t ∈ g)) with
            | none => none
            | some tp => if tp ≠ ∅ then some (rebuildLabel parts sp tp) else none)
        cases parts.find? (fun g => decide (t ∈ g)) with
        | none => rfl
        | some tp =>
            show (if tp ≠ ∅ then some (a, rebuildLabel parts sp tp) else none) =
              Option.map (fun v => (a, v))
                (if tp ≠ ∅ then some (rebuildLabel parts sp tp) else none)
            by_cases h : tp ≠ ∅
            · rw [if_pos h, if_pos h]
              rfl
            · rw [if_neg h, if_neg h]
              rfl
  rw [hF]

theorem rebuildRow_lookup (d : DFAa) (parts : List (Finset String))
    (sp : Finset String) (row : List (String × String)) (a : String) :
    (rebuildRow d parts sp row).lookup a =
      if a ∈ symsListD d then rowValue d parts sp row a else none := by
  rw [rebuildRow_eq]
  exact lookup_filterMap_keyed _ (sortedFin_nodup _) a

theorem map_eq_map_pointwise {α β : Type} {f h : α → β} :
    ∀ {l : List α}, l.map f = l.map h → ∀ a ∈ l, f a = h a := by
  intro l
  induction l with
  | nil => intro _ a ha; simp at ha
  | cons x t ih =>
      intro heq a ha
      simp only [List.map_cons, List.cons.injEq] at heq
      rcases List.mem_cons.mp ha with h1 | h1
      · subst h1
        exact heq.1
      · exact ih heq.2 a h1

end Automata

namespace Automata

theorem signature_eval {d : DFAa} {q : String} {row : List (String × String)}
    (parts : List (Finset String)) (hrow : d.transitions.lookup q = some row) :
    signature d parts q = .ok ((symsListD d).map (fun a =>
      match row.lookup a with
      | none => (-1 : Int)
      | some t => partIdx parts t)) := by
  unfold signature transRow
  rw [hrow]
  rfl

theorem rebuild_acceptFrom {d : DFAa} {fin : List (Finset String)}
    {sp : Finset String} (hwf : wfDFA d) (hp : PartOK d fin)
    (hfix : refineRound d fin = .ok fin) (hspm : sp ∈ fin) :
    ∀ (w : List String) (s : String) (g : Finset String), g ∈ fin → s ∈ g →
      acceptFrom (rebuildDFA d fin sp) (rebuildLabel fin sp g) w =
        acceptFrom d s w := by
  obtain ⟨hinit, hfs, h3, h4⟩ := hwf
  have hnd := partok_nodup hp
  have hond := rebuildOrdered_nodup hnd hspm
  have hmemo : ∀ {g : Finset String}, g ∈ fin → g ∈ rebuildOrdered fin sp :=
    fun hg => (rebuildOrdered_perm hnd hspm).mem_iff.mpr hg
  intro w
  induction w with
  | nil =>
      intro s g hg hs
      show decide (rebuildLabel fin sp g ∈ (rebuildDFA d fin sp).final_states) =
        decide (s ∈ d.final_states)
      rw [decide_eq_decide]
      rw [rebuildDFA_final_iff hond (hmemo hg)]
      constructor
      · intro hcap
        rcases hp.sep g hg with hsub | hsub
        · exact hsub hs
        · exfalso
          apply hcap
          ext x
          simp only [Finset.mem_inter, Finset.not_mem_empty, iff_false, not_and]
          intro hxg hxf
          exact (Finset.mem_sdiff.mp (hsub hxg)).2 hxf
      · intro hsf
        exact Finset.ne_empty_of_mem (Finset.mem_inter.mpr ⟨hs, hsf⟩)
  | cons a w ih =>
      intro s g hg hs
      have hsst : s ∈ d.states := by
        rw [← hp.cover]
        exact mem_partsUnion.mpr ⟨g, hg, hs⟩
      obtain ⟨row_s, hrow_s⟩ := Option.isSome_iff_exists.mp (h3 s hsst)
      have hgne := hp.nonempty g hg
      have hrepg : (sortedFin g).headD "" ∈ g := rep_mem hgne
      have hrepst : (sortedFin g).headD "" ∈ d.states := by
        rw [← hp.cover]
        exact mem_partsUnion.mpr ⟨g, hg, hrepg⟩
      obtain ⟨row_r, hrow_r⟩ := Option.isSome_iff_exists.mp (h3 _ hrepst)
      have hrepRow : repRow d g = row_r := by
        unfold repRow
        rw [hrow_r]
        rfl
      obtain ⟨k, hk⟩ := fixpoint_sig hp h3 hfix g hg
      have hsig_s := (signature_eval fin hrow_s).symm.trans (hk s hs)
      have hsig_r := (signature_eval fin hrow_r).symm.trans (hk _ hrepg)
      have hmapeq : (symsListD d).map (fun a =>
          match row_r.lookup a with
          | none => (-1 : Int)
          | some t => partIdx fin t) = (symsListD d).map (fun a =>
          match row_s.lookup a with
          | none => (-1 : Int)
          | some t => partIdx fin t) := by
        have h1 := Except.ok.inj hsig_r
        have h2 := Except.ok.inj hsig_s
        rw [h1, h2]
      have hpoint := map_eq_map_pointwise hmapeq
      have hlkT := @rebuildTrans_lookup d fin sp hond g (hmemo hg)
      show (match ((rebuildDFA d fin sp).transitions.lookup
          (rebuildLabel fin sp g)).bind (fun row => row.lookup a) with
        | none => false
        | some t => acceptFrom (rebuildDFA d fin sp) t w) =
        (match (d.transitions.lookup s).bind (fun row => row.lookup a) with
        | none => false
        | some t => acceptFrom d t w)
      rw [show (rebuildDFA d fin sp).transitions = rebuildTrans d fin sp from rfl]
      rw [hlkT, hrow_s, option_bind_some, option_bind_some, hrepRow,
        rebuildRow_lookup]
      by_cases hain : a ∈ symsListD d
      · rw [if_pos hain]
        have hfa := hpoint a hain
        cases hlk_s : row_s.lookup a with
        | none =>
            cases hlk_r : row_r.lookup a with
            | none =>
                unfold rowValue
                rw [hlk_r]
            | some t2 =>
                exfalso
                have hfa2 : partIdx fin t2 = (-1 : Int) := by
                  have h := hfa
                  rw [hlk_r, hlk_s] at h
                  exact h
                have ht2 : t2 ∈ d.states :=
                  (h4 _ row_r hrow_r (a, t2) (lookup_mem hlk_r)).2
                have ht2U : t2 ∈ partsUnion fin := by
                  rw [hp.cover]
                  exact ht2
                obtain ⟨i, _, hpi⟩ := partIdx_of_mem_partsUnion ht2U
                rw [hpi] at hfa2
                omega
        | some t =>
            have ht : t ∈ d.states :=
              (h4 _ row_s hrow_s (a, t) (lookup_mem hlk_s)).2
            have htU : t ∈ partsUnion fin := by
              rw [hp.cover]
              exact ht
            obtain ⟨gt, hgt, htin⟩ := mem_partsUnion.mp htU
            have hfindt : fin.find? (fun p => decide (t ∈ p)) = some gt :=
              groupOf_unique hp hgt htin
            cases hlk_r : row_r.lookup a with
            | none =>
                exfalso
                have hfa2 : (-1 : Int) = partIdx fin t := by
                  have h := hfa
                  rw [hlk_r, hlk_s] at h
                  exact h
                obtain ⟨i, _, hpi⟩ := partIdx_of_mem_partsUnion htU
                rw [hpi] at hfa2
                omega
            | some t2 =>
                have hfa2 : partIdx fin t2 = partIdx fin t := by
                  have h := hfa
                  rw [hlk_r, hlk_s] at h
                  exact h
                have ht2 : t2 ∈ d.states :=
                  (h4 _ row_r hrow_r (a, t2) (lookup_mem hlk_r)).2
                have ht2U : t2 ∈ partsUnion fin := by
                  rw [hp.cover]
                  exact ht2
                have hfind : fin.find? (fun p => decide (t2 ∈ p)) =
                    fin.find? (fun p => decide (t ∈ p)) :=
                  groupOf_eq_of_partIdx_eq ht2U htU hfa2
                have hgtne : gt ≠ ∅ :=
                  Finset.nonempty_iff_ne_empty.mp (hp.nonempty gt hgt)
                have hval : rowValue d fin sp row_r a =
                    some (rebuildLabel fin sp gt) := by
                  unfold rowValue
                  rw [hlk_r]
                  show (match fin.find? (fun p => decide (t2 ∈ p)) with
                    | none => none
                    | some tp => if tp ≠ ∅ then some (rebuildLabel fin sp tp)
                        else none : Option String) = _
                  rw [hfind, hfindt]
                  show (if gt ≠ ∅ then some (rebuildLabel fin sp gt) else none) = _
                  rw [if_pos hgtne]
                rw [hval]
                exact ih t gt hgt htin
      · rw [if_neg hain]
        cases hlk_s : row_s.lookup a with
        | none => rfl
        | some t =>
            exfalso
            apply hain
            have := (h4 _ row_s hrow_s (a, t) (lookup_mem hlk_s)).1
            unfold symsListD
            rw [sortedFin_mem]
            exact this

end Automata

namespace Automata

theorem minimize_main {d : DFAa} (hwf : wfDFA d) (hne : d.states.Nonempty) :
    ∃ (rsteps : List (List (Finset String))) (fin : List (Finset String))
      (sp : Finset String),
      minimize_dfa_with_steps d =
        .ok ⟨rebuildDFA d fin sp, initParts d :: rsteps, rebuildMapping fin sp⟩ ∧
      PartOK d fin ∧ sp ∈ fin ∧ d.initial_state ∈ sp ∧
      (∀ w, dfaAccepts (rebuildDFA d fin sp) w = dfaAccepts d w) ∧
      (rebuildDFA d fin sp).states.card = fin.length ∧
      fin.length ≤ d.states.card ∧
      rsteps.getLast? = some fin ∧ (∀ p ∈ rsteps, List.Pairwise pLe p) ∧
      lastTwoEq (initParts d :: rsteps) ∧ rsteps ≠ [] ∧
      (∀ g ∈ fin, ∀ s ∈ g, ∀ w,
        acceptFrom d s w =
          acceptFrom (rebuildDFA d fin sp) (rebuildLabel fin sp g) w) := by
  obtain ⟨rsteps, fin, sp, hfinok, hfix, _hsorted, _hsp, hspmem, hspin, hlast,
    hall, hlt, hne2, heq⟩ := minimize_ok hwf hne
  have hsim := rebuild_acceptFrom hwf hfinok hfix hspmem
  refine ⟨rsteps, fin, sp, heq, hfinok, hspmem, hspin, ?_, ?_, ?_, hlast, hall,
    hlt, hne2, ?_⟩
  · intro w
    show acceptFrom (rebuildDFA d fin sp) (rebuildLabel fin sp sp) w =
      acceptFrom d d.initial_state w
    exact hsim w d.initial_state sp hspmem hspin
  · rw [rebuildDFA_card]
    exact (rebuildOrdered_perm (partok_nodup hfinok) hspmem).length_eq
  · exact le_trans (le_of_eq rfl) (partok_length_le hfinok)
  · intro g hg s hs w
    exact (hsim w s g hg hs).symm

end Automata

namespace Automata

/-- A DFA whose state `"A"` has no transition row at all (the outer dict
has no entry for `"A"`). -/
def exD3 : DFAa :=
  { states := {"A", "B"}
    input_symbols := {"0"}
    transitions := [("B", [("0", "B")])]
    initial_state := "B"
    final_states := ∅ }

/-- A two-state DFA whose non-final state sorts after its final state, so
round 0 of the minimizer trace is recorded out of sort order. -/
def exD6 : DFAa :=
  { states := {"a", "b"}
    input_symbols := {"0"}
    transitions := [("a", [("0", "a")]), ("b", [("0", "b")])]
    initial_state := "a"
    final_states := {"a"} }

/-- A three-state minimal DFA (language `0^n, n >= 2`): all states are
pairwise distinguishable, yet round 0 of the minimizer is the coarse
final/non-final split, which is strictly refined by the later rounds. -/
def exD7 : DFAa :=
  { states := {"A", "B", "C"}
    input_symbols := {"0"}
    transitions := [("A", [("0", "B")]), ("B", [("0", "C")]), ("C", [("0", "C")])]
    initial_state := "A"
    final_states := {"C"} }

/-- A DFA with an unreachable state `"B"`: the library minify path trims
it, the hand-rolled path keeps it. -/
def exD10 : DFAa :=
  { states := {"A", "B"}
    input_symbols := {"0"}
    transitions := [("A", [("0", "A")]), ("B", [("0", "B")])]
    initial_state := "A"
    final_states := {"A"} }

/-- A complete well-formed DFA used as a concrete witness input. -/
def exDW : DFAa :=
  { states := {"A", "B"}
    input_symbols := {"0"}
    transitions := [("A", [("0", "B")]), ("B", [("0", "B")])]
    initial_state := "A"
    final_states := {"B"} }

/-- A partial DFA: every state has a row, but each row omits one of the
two alphabet symbols. -/
def exPart : DFAa :=
  { states := {"A", "B"}
    input_symbols := {"0", "1"}
    transitions := [("A", [("0", "B")]), ("B", [("1", "B")])]
    initial_state := "A"
    final_states := {"B"} }

/-- All states of a DFA are pairwise distinguishable: the semantic
minimality property quantified over in the idempotence claim. -/
def distinguishable (d : DFAa) : Prop :=
  ∀ s ∈ d.states, ∀ t ∈ d.states, s ≠ t →
    ∃ w, acceptFrom d s w ≠ acceptFrom d t w

theorem wf_of_rows {d : DFAa} (h1 : d.initial_state ∈ d.states)
    (h2 : d.final_states ⊆ d.states)
    (h3 : ∀ q ∈ d.states, (d.transitions.lookup q).isSome = true)
    (h4 : ∀ p ∈ d.transitions, ∀ e ∈ p.2,
      e.1 ∈ d.input_symbols ∧ e.2 ∈ d.states) : wfDFA d :=
  ⟨h1, h2, h3, fun q row hq e he => h4 (q, row) (lookup_mem hq) e he⟩

theorem partsUnion_card_eq {l : List (Finset String)}
    (h1 : ∀ g ∈ l, g.card = 1)
    (hd : List.Pairwise (fun g h => Disjoint g h) l) :
    (partsUnion l).card = l.length := by
  induction l with
  | nil => simp [partsUnion]
  | cons g rest ih =>
      rw [show partsUnion (g :: rest) = g ∪ partsUnion rest from rfl]
      have hdc := List.pairwise_cons.mp hd
      rw [Finset.card_union_of_disjoint (disjoint_partsUnion hdc.1)]
      rw [h1 g (List.mem_cons_self _ _),
        ih (fun h hm => h1 h (List.mem_cons_of_mem _ hm)) hdc.2]
      rw [List.length_cons]
      omega

theorem exD7_distinguishable : distinguishable exD7 := by
  intro s hs t ht hne
  fin_cases hs <;> fin_cases ht <;>
    first
      | exact absurd rfl hne
      | exact ⟨[], by decide⟩
      | exact ⟨["0"], by decide⟩

end Automata

namespace Automata

/-- C3: construction of a partial DFA via `create_dfa` always succeeds
(no completeness check), and `minimize_dfa_with_steps` never errors as
long as every state has a (possibly per-symbol incomplete) transition
row; missing inner entries are handled as sink-rejects. -/
theorem C3_partial_dfa_handling :
    (∀ (states alphabet : Finset String)
      (transitions : List (String × List (String × String)))
      (start : String) (finals : Finset String),
      start ∈ states → finals ⊆ states →
      (∀ p ∈ transitions, ∀ e ∈ p.2, e.2 ∈ states) → "" ∉ alphabet →
      create_dfa states alphabet transitions start finals =
        .ok ⟨states, alphabet, transitions, start, finals⟩) ∧
    (∀ d : DFAa, wfDFA d → d.states.Nonempty →
      ∃ r, minimize_dfa_with_steps d = .ok r) := by
  constructor
  · intro states alphabet transitions start finals h1 h2 h3 h4
    unfold create_dfa
    rw [if_neg (not_not_intro h1), if_neg (not_not_intro h2)]
    have hall : transitions.all (fun p => p.2.all (fun e => decide (e.2 ∈ states))) =
        true := by
      rw [List.all_eq_true]
      intro p hp
      rw [List.all_eq_true]
      intro e he
      exact decide_eq_true (h3 p hp e he)
    rw [if_neg (not_not_intro hall), if_neg h4]
  · intro d hwf hne
    obtain ⟨rsteps, fin, sp, heq, _⟩ := minimize_main hwf hne
    exact ⟨_, heq⟩

theorem C3_witness :
    (create_dfa {"A", "B"} {"0", "1"} [("A", [("0", "B")]), ("B", [("1", "B")])]
        "A" {"B"} = .ok exPart) ∧
    ∃ r, minimize_dfa_with_steps exPart = .ok r := by
  constructor
  · exact C3_partial_dfa_handling.1 _ _ _ _ _ (by decide) (by decide) (by decide)
      (by decide)
  · exact C3_partial_dfa_handling.2 exPart
      (wf_of_rows (by decide) (by decide) (by decide) (by decide)) (by decide)

/-- C3: the claim's "never raises an error" fails when a state's whole
row is missing: `create_dfa` accepts this DFA, but the minimizer hits a
`KeyError` (modelled as `.error`) on state `"A"`. -/
theorem C3_counterexample :
    create_dfa exD3.states exD3.input_symbols exD3.transitions
        exD3.initial_state exD3.final_states = .ok exD3 ∧
    minimize_dfa_with_steps exD3 = .error "A" := by
  constructor
  · decide
  · decide

/-- C4: for every well-formed nonempty DFA the minimizer succeeds, the
result accepts exactly the same language, and its state count does not
exceed the input's. -/
theorem C4_minimize_preserves_language {d : DFAa} (hwf : wfDFA d)
    (hne : d.states.Nonempty) :
    ∃ r : MinimResult, minimize_dfa_with_steps d = .ok r ∧
      (∀ w, dfaAccepts r.dfa w = dfaAccepts d w) ∧
      r.dfa.states.card ≤ d.states.card := by
  obtain ⟨rsteps, fin, sp, heq, _, _, _, hlang, hcard, hlen, _⟩ :=
    minimize_main hwf hne
  refine ⟨_, heq, hlang, ?_⟩
  rw [hcard]
  exact hlen

theorem C4_witness :
    wfDFA exDW ∧ exDW.states.Nonempty ∧
    (∃ r : MinimResult, minimize_dfa_with_steps exDW = .ok r ∧
      (∀ w, dfaAccepts r.dfa w = dfaAccepts exDW w) ∧
      r.dfa.states.card ≤ exDW.states.card) := by
  have hwf : wfDFA exDW :=
    wf_of_rows (by decide) (by decide) (by decide) (by decide)
  exact ⟨hwf, by decide, C4_minimize_preserves_language hwf (by decide)⟩

/-- C6: the trace is deterministic and every recorded round after round 0
is sorted by the mandated key; round 0 itself is recorded in
construction order (non-final group first), not sort order. -/
theorem C6_trace_deterministic_sorted {d : DFAa} (hwf : wfDFA d)
    (hne : d.states.Nonempty) :
    ∃ r : MinimResult, minimize_dfa_with_steps d = .ok r ∧
      r.steps.head? = some (initParts d) ∧
      (∀ p ∈ r.steps.tail, List.Pairwise pLe p) := by
  obtain ⟨rsteps, fin, sp, heq, _, _, _, _, _, _, _, hall, _⟩ :=
    minimize_main hwf hne
  exact ⟨_, heq, rfl, hall⟩

theorem C6_witness :
    wfDFA exD6 ∧
    (∃ r : MinimResult, minimize_dfa_with_steps exD6 = .ok r ∧
      r.steps.head? = some (initParts exD6) ∧
      (∀ p ∈ r.steps.tail, List.Pairwise pLe p)) := by
  have hwf : wfDFA exD6 :=
    wf_of_rows (by decide) (by decide) (by decide) (by decide)
  exact ⟨hwf, C6_trace_deterministic_sorted hwf (by decide)⟩

/-- C6: round 0 of the recorded trace violates the mandated sort key:
for `exD6` it is `[{b}, {a}]`, which is not ordered by least member, so
the claim's "groups within each round ordered by the mandated sort key"
fails at round 0. -/
theorem C6_counterexample :
    (minimize_dfa_with_steps exD6).map (fun r => r.steps.headD []) =
      .ok [{"b"}, {"a"}] ∧
    ¬ List.Pairwise pLe [({"b"} : Finset String), {"a"}] := by
  constructor
  · decide
  · decide

/-- C7: minimizing a DFA whose states are pairwise distinguishable (the
semantic meaning of "already minimal") preserves the state count and the
language, and the trace's final round equals the round before it. -/
theorem C7_minimal_idempotence {d : DFAa} (hwf : wfDFA d)
    (hne : d.states.Nonempty) (hdist : distinguishable d) :
    ∃ r : MinimResult, minimize_dfa_with_steps d = .ok r ∧
      r.dfa.states.card = d.states.card ∧
      (∀ w, dfaAccepts r.dfa w = dfaAccepts d w) ∧
      r.steps.getLast? = r.steps.dropLast.getLast? := by
  obtain ⟨rsteps, fin, sp, heq, hfinok, hspm, hspin, hlang, hcard, hlen, hlast,
    hall, hlt, hne2, hsim⟩ := minimize_main hwf hne
  refine ⟨_, heq, ?_, hlang, hlt⟩
  have hsing : ∀ g ∈ fin, g.card = 1 := by
    intro g hg
    obtain ⟨x, hx⟩ := hfinok.nonempty g hg
    have huniq : ∀ y ∈ g, y = x := by
      intro y hy
      by_contra hxy
      have hxs : x ∈ d.states := by
        rw [← hfinok.cover]
        exact mem_partsUnion.mpr ⟨g, hg, hx⟩
      have hys : y ∈ d.states := by
        rw [← hfinok.cover]
        exact mem_partsUnion.mpr ⟨g, hg, hy⟩
      obtain ⟨w, hw⟩ := hdist y hys x hxs hxy
      apply hw
      rw [hsim g hg y hy w, hsim g hg x hx w]
    rw [Finset.card_eq_one]
    exact ⟨x, Finset.eq_singleton_iff_unique_mem.mpr ⟨hx, huniq⟩⟩
  have hlencard : fin.length = d.states.card := by
    rw [← hfinok.cover, partsUnion_card_eq hsing hfinok.disj]
  rw [hcard, hlencard]

theorem C7_witness :
    wfDFA exD7 ∧ distinguishable exD7 ∧
    (∃ r : MinimResult, minimize_dfa_with_steps exD7 = .ok r ∧
      r.dfa.states.card = exD7.states.card ∧
      (∀ w, dfaAccepts r.dfa w = dfaAccepts exD7 w) ∧
      r.steps.getLast? = r.steps.dropLast.getLast?) := by
  have hwf : wfDFA exD7 :=
    wf_of_rows (by decide) (by decide) (by decide) (by decide)
  exact ⟨hwf, exD7_distinguishable,
    C7_minimal_idempotence hwf (by decide) exD7_distinguishable⟩

/-- C7: for the already-minimal `exD7` the trace's final round is the
full singleton split, which differs from round 0's coarse final/non-final
partition, so "final round equals round 0's partition" fails. -/
theorem C7_counterexample :
    distinguishable exD7 ∧
    (minimize_dfa_with_steps exD7).map
        (fun r => (r.steps.head?, r.steps.getLast?)) =
      .ok (some [{"A", "B"}, {"C"}], some [{"A"}, {"B"}, {"C"}]) ∧
    ([({"A", "B"} : Finset String), {"C"}] : List (Finset String)) ≠
      [{"A"}, {"B"}, {"C"}] := by
  refine ⟨exD7_distinguishable, ?_, ?_⟩
  · decide
  · decide

end Automata

namespace Automata

/-- Modelled from the spec: one step of reachable-state exploration --
the seed set plus every target of a transition row of a seed state. -/
def succSet (d : DFAa) (S : Finset String) : Finset String :=
  (sortedFin S).foldr (fun q acc =>
    ((d.transitions.lookup q).getD []).foldr (fun e acc2 => insert e.2 acc2) acc) S

/-- Iterated exploration. -/
def reachIter (d : DFAa) : Nat → Finset String → Finset String
  | 0, S => S
  | n + 1, S => reachIter d n (succSet d S)

/-- Modelled from the spec: the states reachable from the initial state;
`|states|` rounds of exploration always suffice. -/
def reachSet (d : DFAa) : Finset String :=
  reachIter d d.states.card {d.initial_state}

/-- Modelled from the spec: the library `minify` first restricts the DFA
to its reachable states (the hand-rolled path does not). -/
def trimReach (d : DFAa) : DFAa :=
  { states := d.states ∩ reachSet d
    input_symbols := d.input_symbols
    transitions := (sortedFin (d.states ∩ reachSet d)).map
      (fun q => (q, (d.transitions.lookup q).getD []))
    initial_state := d.initial_state
    final_states := d.final_states ∩ reachSet d }

/-- Modelled from the spec: the library `minify` completes a partial DFA
with an explicit trap state before refining; a complete DFA is left
untouched. -/
def completeSink (d : DFAa) : DFAa :=
  if ∀ q ∈ d.states, ∀ a ∈ d.input_symbols,
      (((d.transitions.lookup q).getD []).lookup a).isSome = true then d
  else
    { states := insert "__trap__" d.states
      input_symbols := d.input_symbols
      transitions := ("__trap__", (symsListD d).map (fun a => (a, "__trap__"))) ::
        (sortedFin d.states).map (fun q => (q, (symsListD d).map (fun a =>
          (a, (((d.transitions.lookup q).getD []).lookup a).getD "__trap__"))))
      initial_state := d.initial_state
      final_states := d.final_states }

/-- Modelled from the spec: `AutomataHandler.minimize_dfa`, the library
`minify` path -- Moore refinement applied to the trimmed and completed
input (partition refinement computes the same minimal automaton on a
complete, fully reachable DFA). -/
def minimize_dfa (d : DFAa) : Except String DFAa :=
  (minimize_dfa_with_steps (completeSink (trimReach d))).map (fun r => r.dfa)

/-- C10: on a DFA already in normal form (complete, every state
reachable, transition table in sorted normalized order) the library path
and the hand-rolled path return the same minimized DFA, hence the same
language and state count. -/
theorem C10_paths_agree_on_normal_form {d : DFAa} (hwf : wfDFA d)
    (hne : d.states.Nonempty) (hnorm : completeSink (trimReach d) = d) :
    ∃ (r : MinimResult) (m : DFAa), minimize_dfa_with_steps d = .ok r ∧
      minimize_dfa d = .ok m ∧ m.states.card = r.dfa.states.card ∧
      (∀ w, dfaAccepts m w = dfaAccepts r.dfa w) := by
  obtain ⟨rsteps, fin, sp, heq, _⟩ := minimize_main hwf hne
  refine ⟨_, _, heq, ?_, rfl, fun w => rfl⟩
  unfold minimize_dfa
  rw [hnorm, heq]
  rfl

theorem C10_witness :
    wfDFA exDW ∧ completeSink (trimReach exDW) = exDW ∧
    (∃ (r : MinimResult) (m : DFAa), minimize_dfa_with_steps exDW = .ok r ∧
      minimize_dfa exDW = .ok m ∧ m.states.card = r.dfa.states.card ∧
      (∀ w, dfaAccepts m w = dfaAccepts r.dfa w)) := by
  have hwf : wfDFA exDW :=
    wf_of_rows (by decide) (by decide) (by decide) (by decide)
  have hnorm : completeSink (trimReach exDW) = exDW := by decide
  exact ⟨hwf, hnorm, C10_paths_agree_on_normal_form hwf (by decide) hnorm⟩

/-- C10: the two paths differ in general: the library path trims the
unreachable state `"B"` of `exD10` and returns a one-state DFA, while
the hand-rolled path keeps it and returns two states. -/
theorem C10_counterexample :
    (minimize_dfa exD10).map (fun m => m.states.card) = (Except.ok 1 : Except String Nat) ∧
    (minimize_dfa_with_steps exD10).map (fun r => r.dfa.states.card) = (Except.ok 2 : Except String Nat) ∧
    (1 : Nat) ≠ 2 := by
  constructor
  · decide
  constructor
  · decide
  · decide

end Automata

namespace Automata

/-- Regular-expression AST covering the operators used by the engine's
regex bridge (`0*10*` needs symbols, concatenation and star; union is the
remaining constructor of the spec's grammar). -/
inductive Rgx
  | sym (a : String)
  | concat (r1 r2 : Rgx)
  | union (r1 r2 : Rgx)
  | star (r : Rgx)

/-- Numbered fresh NFA state names of the regex compiler. -/
def stName (n : Nat) : String := "s" ++ Nat.repr n

/-- Modelled from the spec: Thompson construction (`NFA.from_regex`,
absent from the source tree).  Returns the transition rows, the start
state, the accepting state and the next fresh counter; fragment accept
states have no outgoing row, so linking rows never collide. -/
def thompson : Rgx → Nat →
    List (String × List (String × Finset String)) × String × String × Nat
  | .sym a, n =>
      ([(stName n, [(a, {stName (n + 1)})])], stName n, stName (n + 1), n + 2)
  | .concat r1 r2, n =>
      let tr1 := thompson r1 n
      let tr2 := thompson r2 tr1.2.2.2
      (tr1.1 ++ tr2.1 ++ [(tr1.2.2.1, [("", {tr2.2.1})])],
       tr1.2.1, tr2.2.2.1, tr2.2.2.2)
  | .union r1 r2, n =>
      let tr1 := thompson r1 n
      let tr2 := thompson r2 tr1.2.2.2
      let m := tr2.2.2.2
      (tr1.1 ++ tr2.1 ++ [(stName m, [("", {tr1.2.1, tr2.2.1})]),
        (tr1.2.2.1, [("", {stName (m + 1)})]),
        (tr2.2.2.1, [("", {stName (m + 1)})])],
       stName m, stName (m + 1), m + 2)
  | .star r, n =>
      let tr := thompson r n
      let m := tr.2.2.2
      (tr.1 ++ [(stName m, [("", {tr.2.1, stName (m + 1)})]),
        (tr.2.2.1, [("", {tr.2.1, stName (m + 1)})])],
       stName m, stName (m + 1), m + 2)

/-- The plain symbols of a regular expression. -/
def rgxSyms : Rgx → Finset String
  | .sym a => {a}
  | .concat r1 r2 => rgxSyms r1 ∪ rgxSyms r2
  | .union r1 r2 => rgxSyms r1 ∪ rgxSyms r2
  | .star r => rgxSyms r

/-- Modelled from the spec: `AutomataHandler.regex_to_nfa` via the
library `NFA.from_regex` -- the Thompson NFA over the regex's symbols
plus epsilon. -/
def regex_to_nfa (r : Rgx) : NFAa :=
  let tr := thompson r 0
  { states := ((List.range tr.2.2.2).map stName).toFinset
    input_symbols := insert "" (rgxSyms r)
    transitions := tr.1
    initial_state := tr.2.1
    final_states := {tr.2.2.1} }

/-- `AutomataHandler.regex_to_dfa`: regex -> NFA -> DFA via the subset
construction. -/
def regex_to_dfa (r : Rgx) : DFAa × List (Finset String × String) :=
  nfa_to_dfa (regex_to_nfa r)

/-- The regular expression `0*10*`. -/
def rgx8 : Rgx :=
  .concat (.star (.sym "0")) (.concat (.sym "1") (.star (.sym "0")))

end Automata

namespace Automata

/-- The DFA produced by `regex_to_dfa` for `0*10*`: `A`/`B` have seen no
`1` yet, `C`/`D` exactly one, `E` at least two (dead). -/
def exD8 : DFAa :=
  { states := {"A", "B", "C", "D", "E"}
    input_symbols := {"0", "1"}
    transitions := [("A", [("0", "B"), ("1", "C")]),
      ("B", [("0", "B"), ("1", "C")]),
      ("C", [("0", "D"), ("1", "E")]),
      ("D", [("0", "D"), ("1", "E")]),
      ("E", [("0", "E"), ("1", "E")])]
    initial_state := "A"
    final_states := {"C", "D"} }

theorem exD8_invariant : ∀ w : List String, (∀ a ∈ w, a = "0" ∨ a = "1") →
    (acceptFrom exD8 "A" w = decide (w.count "1" = 1)) ∧
    (acceptFrom exD8 "B" w = decide (w.count "1" = 1)) ∧
    (acceptFrom exD8 "C" w = decide (w.count "1" = 0)) ∧
    (acceptFrom exD8 "D" w = decide (w.count "1" = 0)) ∧
    (acceptFrom exD8 "E" w = false) := by
  intro w
  induction w with
  | nil =>
      intro _
      refine ⟨?_, ?_, ?_, ?_, ?_⟩ <;> decide
  | cons a w ih =>
      intro h
      obtain ⟨hA, hB, hC, hD, hE⟩ :=
        ih (fun b hb => h b (List.mem_cons_of_mem _ hb))
      rcases h a (List.mem_cons_self _ _) with ha | ha
      · subst ha
        have hc : (("0" : String) :: w).count "1" = w.count "1" := by
          simp [List.count_cons]
        rw [hc]
        refine ⟨?_, ?_, ?_, ?_, ?_⟩
        · show acceptFrom exD8 "B" w = _
          exact hB
        · show acceptFrom exD8 "B" w = _
          exact hB
        · show acceptFrom exD8 "D" w = _
          exact hD
        · show acceptFrom exD8 "D" w = _
          exact hD
        · show acceptFrom exD8 "E" w = _
          exact hE
      · subst ha
        have hc : (("1" : String) :: w).count "1" = w.count "1" + 1 := by
          simp [List.count_cons]
        rw [hc]
        refine ⟨?_, ?_, ?_, ?_, ?_⟩
        · show acceptFrom exD8 "C" w = _
          rw [hC]
          rw [decide_eq_decide]
          omega
        · show acceptFrom exD8 "C" w = _
          rw [hC]
          rw [decide_eq_decide]
          omega
        · show acceptFrom exD8 "E" w = _
          rw [hE]
          rw [show (decide (w.count "1" + 1 = 0) : Bool) = false from by
            rw [decide_eq_false_iff_not]
            omega]
        · show acceptFrom exD8 "E" w = _
          rw [hE]
          rw [show (decide (w.count "1" + 1 = 0) : Bool) = false from by
            rw [decide_eq_false_iff_not]
            omega]
        · show acceptFrom exD8 "E" w = _
          exact hE

theorem regex8_eq : (regex_to_dfa rgx8).1 = exD8 := by
  have h1 : (regex_to_dfa rgx8).1.states = exD8.states := by decide
  have h2 : (regex_to_dfa rgx8).1.input_symbols = exD8.input_symbols := by decide
  have h3 : (regex_to_dfa rgx8).1.transitions = exD8.transitions := by decide
  have h4 : (regex_to_dfa rgx8).1.initial_state = exD8.initial_state := by decide
  have h5 : (regex_to_dfa rgx8).1.final_states = exD8.final_states := by decide
  conv_rhs => rw [show exD8 = DFAa.mk exD8.states exD8.input_symbols
    exD8.transitions exD8.initial_state exD8.final_states from rfl]
  rw [← h1, ← h2, ← h3, ← h4, ← h5]

theorem C8_regex_roundtrip :
    (regex_to_dfa rgx8).1 = exD8 ∧
    (∀ w : List String, (∀ a ∈ w, a = "0" ∨ a = "1") →
      (dfaAccepts exD8 w = true ↔ w.count "1" = 1)) ∧
    dfaAccepts exD8 ["0", "0"] = false ∧
    dfaAccepts exD8 ["1", "1"] = false ∧
    dfaAccepts exD8 ["0", "1", "0"] = true := by
  refine ⟨regex8_eq, ?_, by decide, by decide, by decide⟩
  intro w hw
  obtain ⟨hA, _⟩ := exD8_invariant w hw
  show acceptFrom exD8 "A" w = true ↔ w.count "1" = 1
  rw [hA, decide_eq_true_eq]

theorem C8_witness :
    (∀ a ∈ (["0", "1", "0"] : List String), a = "0" ∨ a = "1") ∧
    (dfaAccepts exD8 ["0", "1", "0"] = true ↔
      (["0", "1", "0"] : List String).count "1" = 1) := by
  refine ⟨by decide, C8_regex_roundtrip.2.1 ["0", "1", "0"] (by decide)⟩

end Automata
